import Mathlib

/-!
A shallow embedding of the `largetable` storage engine

This file embeds the core data model and operations of the `largetable`
wide-column store (src/src/mtable.rs, src/src/dtable.rs, src/src/base.rs)
into Lean 4 and proves properties of the embedded code.

Modelling conventions:
* Byte strings (`Vec<u8>`) are `List Nat`; `u64` timestamps are `Nat`
  (timestamps are never subjected to wrapping arithmetic in the code).
* `BTreeMap<String, _>` is a key-sorted association list; `btGet` models
  `BTreeMap::get` and `btInsert` models `BTreeMap::insert` (replace on an
  existing key, otherwise insert preserving key order).
* File I/O always succeeds in the logical model except where a claim is
  about the I/O layer itself; fallible operations return `Option`/`Except`,
  and a Rust `panic!` is modelled as `none`.
* The disktable data-file decode is modelled as returning the stored row.
  Because of the header-length slip embedded in `DTable.get_row_offset`
  (the C2 finding), this is exact only when the accessed header index is 0
  or the last one — in particular for disktables of at most two rows — and
  the theorems that rely on it carry that restriction as a hypothesis;
  `middle_region_over_reads` derives the boundary from the embedded
  arithmetic itself.
* Rust `for` loops with `break` are modelled by structurally recursive
  helper functions; unbounded `loop`s are given explicit fuel that provably
  dominates the loop's variant.
-/

/-- `DEntry` from the generated protobuf schema: one timestamped value. -/
structure DEntry where
  timestamp : Nat
  value : List Nat
  deriving DecidableEq, Repr, Inhabited

/-- `DColumn`: the timestamp-ordered history of one column. -/
structure DColumn where
  entries : List DEntry
  deriving DecidableEq, Repr, Inhabited

/-- `TError` from dtable.rs. -/
inductive TError where
  | IoError
  | NotFound
  | AlreadyExists
  deriving DecidableEq, Repr

/-- `MUpdate` from query.rs: one (column, value) write. -/
structure MUpdate where
  key : String
  value : List Nat
  deriving DecidableEq, Repr

/-- `MUpdate::size` from query.rs. -/
def MUpdate.size (u : MUpdate) : Nat :=
  u.value.length + u.key.length

/-- `QueryResult` from query.rs. -/
inductive QueryResult where
  | NotImplemented
  | RowNotFound
  | RowAlreadyExists
  | InternalError
  | Done
  | PartialCommit
  | NetworkError
  | Data (columns : List (Option (List Nat)))
  deriving DecidableEq, Repr

/-- A commit log entry (`CommitLogEntry` of the generated schema):
key, timestamp and the list of (column, value) updates. -/
structure CommitLogEntry where
  key : String
  timestamp : Nat
  updates : List (String × List Nat)
  deriving DecidableEq, Repr

/-- The reverse scan shared by `DColumn::get_value` and `MRow::update`:
the largest index whose entry has timestamp at most `t` (the Rust loops walk
the entry array from the end and stop at the first such index). -/
def largestIdxLE : List DEntry → Nat → Option Nat
  | [], _ => none
  | e :: rest, t =>
    match largestIdxLE rest t with
    | some i => some (i + 1)
    | none => if e.timestamp ≤ t then some 0 else none

/-- `DColumn::get_value` (dtable.rs): on an empty column fail with
`NotFound`; otherwise scan the entries from the end and return the first
entry with timestamp ≤ `timestamp`; if the scan never hits, the index keeps
its initial value `n-1`, so the last entry is returned. -/
def DColumn.get_value (c : DColumn) (timestamp : Nat) : Except TError DEntry :=
  match c.entries.length with
  | 0 => .error .NotFound
  | n =>
    let index := (largestIdxLE c.entries timestamp).getD (n - 1)
    .ok (c.entries.getD index default)

/-- `DColumn::get_latest_value` (dtable.rs): `get_value` at `u64::MAX`;
the unbounded `Nat` model has no maximum, so the largest and only use of it
in claims is bypassed -- kept for completeness with a large bound. -/
def DColumn.get_latest_value (c : DColumn) : Except TError DEntry :=
  c.get_value (2 ^ 64 - 1)

/-- The insertion position computed by `MRow::update` (mtable.rs):
start from 0, walk the entries from the end, and on the first entry with
timestamp ≤ `t` at index `i` use `i + 1`. -/
def insertionIndex (es : List DEntry) (t : Nat) : Nat :=
  match largestIdxLE es t with
  | some i => i + 1
  | none => 0

/-- `BTreeMap::get` on a string-keyed association list. -/
def btGet {α : Type} : List (String × α) → String → Option α
  | [], _ => none
  | (k, v) :: rest, key => if key = k then some v else btGet rest key

/-- The string order used for every key comparison: Rust compares the keys
as UTF-8 byte strings, which orders them by code point, i.e. by the
lexicographic order on the character lists. This is propositionally the
same as the Lean `<` on `String` (Mathlib: `String.lt_iff_toList_lt`) but,
unlike it, evaluates by kernel reduction. -/
def strLt (a b : String) : Prop :=
  a.data < b.data

instance (a b : String) : Decidable (strLt a b) := by
  unfold strLt; infer_instance

/-- `BTreeMap::insert` on a key-sorted association list: replace the value
at an existing key, otherwise insert at the key-ordered position. -/
def btInsert {α : Type} : List (String × α) → String → α → List (String × α)
  | [], key, v => [(key, v)]
  | (k, w) :: rest, key, v =>
    if key = k then (key, v) :: rest
    else if strLt key k then (key, v) :: (k, w) :: rest
    else (k, w) :: btInsert rest key v

/-- `MRow` (mtable.rs): the columns of one in-memory row. -/
structure MRow where
  columns : List (String × DColumn)
  deriving DecidableEq, Repr

/-- `MTable` (mtable.rs): the in-memory table. -/
structure MTable where
  rows : List (String × MRow)
  deriving DecidableEq, Repr

/-- `MRow::update` (mtable.rs): for each update, if the column exists insert
a new entry at `insertionIndex`, otherwise create the column with a single
entry. -/
def MRow.update (r : MRow) (updates : List MUpdate) (timestamp : Nat) : MRow :=
  updates.foldl (fun row u =>
    match btGet row.columns u.key with
    | some col =>
      ⟨btInsert row.columns u.key
        ⟨col.entries.insertIdx (insertionIndex col.entries timestamp)
          ⟨timestamp, u.value⟩⟩⟩
    | none =>
      ⟨btInsert row.columns u.key ⟨[⟨timestamp, u.value⟩]⟩⟩) r

/-- `MTable::insert` (mtable.rs): fail with `AlreadyExists` when the row key
is present, otherwise create the row whose columns each hold a single entry
at `timestamp` (later duplicates among `updates` overwrite, as collecting
into a `BTreeMap` does). -/
def MTable.insert (m : MTable) (row : String) (updates : List MUpdate)
    (timestamp : Nat) : Except TError MTable :=
  if (btGet m.rows row).isSome then
    .error .AlreadyExists
  else
    .ok ⟨btInsert m.rows row
      ⟨updates.foldl (fun acc u =>
        btInsert acc u.key ⟨[⟨timestamp, u.value⟩]⟩) []⟩⟩

/-- `MTable::update` (mtable.rs): update the row in place when present,
otherwise fall through to `MTable::insert`. -/
def MTable.update (m : MTable) (row : String) (updates : List MUpdate)
    (timestamp : Nat) : Except TError MTable :=
  match btGet m.rows row with
  | some r => .ok ⟨btInsert m.rows row (r.update updates timestamp)⟩
  | none => m.insert row updates timestamp

/-- `MTable::select` (mtable.rs): `None` when the row is absent; otherwise,
per requested column, the `.ok` result of `DColumn::get_value` or `None`. -/
def MTable.select (m : MTable) (row : String) (cols : List String)
    (timestamp : Nat) : Option (List (Option DEntry)) :=
  match btGet m.rows row with
  | none => none
  | some r =>
    some (cols.map fun column =>
      match btGet r.columns column with
      | some c => (c.get_value timestamp).toOption
      | none => none)

example : MTable.insert ⟨[]⟩ "r" [⟨"c", [1, 2]⟩] 7
    = .ok ⟨[("r", ⟨[("c", ⟨[⟨7, [1, 2]⟩]⟩)]⟩)]⟩ := rfl

example :
    (MTable.update ⟨[("r", ⟨[("c", ⟨[⟨7, [1]⟩]⟩)]⟩)]⟩ "r" [⟨"c", [2]⟩] 5)
    = .ok ⟨[("r", ⟨[("c", ⟨[⟨5, [2]⟩, ⟨7, [1]⟩]⟩)]⟩)]⟩ := rfl

example :
    MTable.select ⟨[("r", ⟨[("c", ⟨[⟨5, [2]⟩, ⟨7, [1]⟩]⟩)]⟩)]⟩ "r" ["c"] 6
    = some [some ⟨5, [2]⟩] := by decide

/-- The binary search shared by `DRow::get_column` and
`DTable::get_row_offset` (dtable.rs): `l`/`r` are `i32` cursors, the probe
index is `(l + r) >> 1` (non-negative inside the loop, hence plain halving),
and the three match arms are key-equal / key-greater / key-smaller. The
`fuel` argument bounds the iteration count; the window `r - l` shrinks every
round, so `length + 1` fuel is always enough. -/
def bsearchAux (ks : List String) (key : String) :
    Nat → Int → Int → Option Nat
  | 0, _, _ => none
  | fuel + 1, l, r =>
    if l ≤ r then
      let index : Nat := (l + r).toNat / 2
      let k := ks.getD index ""
      if key = k then some index
      else if strLt k key then bsearchAux ks key fuel ((index : Int) + 1) r
      else bsearchAux ks key fuel l ((index : Int) - 1)
    else none

/-- Binary search over a sorted key list, fuelled as in `bsearchAux`. -/
def bsearch (ks : List String) (key : String) : Option Nat :=
  bsearchAux ks key (ks.length + 1) 0 ((ks.length : Int) - 1)

/-- `DRow` from the generated schema: parallel arrays of column names
(sorted) and columns. -/
structure DRow where
  keys : List String
  columns : List DColumn
  deriving DecidableEq, Repr, Inhabited

/-- `DRow::get_column` (dtable.rs): binary search the key array, then index
the parallel column array. -/
def DRow.get_column (r : DRow) (key : String) : Except TError DColumn :=
  match bsearch r.keys key with
  | some index => .ok (r.columns.getD index ⟨[]⟩)
  | none => .error .NotFound

/-- `DRow::get_value` (dtable.rs). -/
def DRow.get_value (r : DRow) (key : String) (timestamp : Nat) :
    Except TError DEntry :=
  (r.get_column key).bind (fun c => c.get_value timestamp)

/-- The in-memory content of a `DTable` (dtable.rs): the sorted header key
list, with each key paired with the row whose serialization was written at
that header entry's offset. The offset arithmetic of the region that
`get_row` actually reads is embedded separately and faithfully in
`DTable.get_row_offset`, where the source deviates from the header
invariant (the C2 finding). -/
structure DTableL where
  entries : List (String × DRow)
  deriving DecidableEq, Repr

/-- `DTable::get_row` (dtable.rs), at the logical level: the binary search
of `get_row_offset` over the header keys decides hit or `NotFound`; a hit
is modelled as decoding exactly the stored row. By the region arithmetic
embedded in `DTable.get_row_offset`, the bytes the source really decodes
are exactly that row's serialization only when the matched index is 0
(region `[0, o_1)`) or the last one (read to EOF) — so for every disktable
of at most two rows; at a middle index of a larger table the source reads
`o_{i+1}` bytes instead of `o_{i+1} - o_i` (see C2 and
`middle_region_over_reads`), and what the protobuf decode then yields
depends on the serialized bytes, which this model does not represent. The
select theorems built on this definition therefore restrict the disktables
to at most two rows. -/
def DTableL.get_row (d : DTableL) (key : String) : Except TError DRow :=
  match bsearch (d.entries.map Prod.fst) key with
  | some index => .ok ((d.entries.getD index ("", default)).2)
  | none => .error .NotFound

/-- `DTable::select` (dtable.rs). -/
def DTableL.select (d : DTableL) (row : String) (cols : List String)
    (timestamp : Nat) : Option (List (Option DEntry)) :=
  match d.get_row row with
  | .error _ => none
  | .ok r =>
    some (cols.map fun col => (r.get_value col timestamp).toOption)

/-- `DataRegion` (dtable.rs): a byte region of the data file. -/
structure DataRegion where
  start : Nat
  length : Option Nat
  deriving DecidableEq, Repr

/-- `DTableHeaderEntry` of the generated schema: row key and byte offset of
the row inside the data file. -/
structure DTableHeaderEntry where
  key : String
  offset : Nat
  deriving DecidableEq, Repr, Inhabited

/-- `DTable::get_row_offset` (dtable.rs): binary search the header entries
by key; on a hit at `index`, the region starts at that entry's offset, and
its `length` is `None` for the last entry and otherwise — exactly as in the
source — the NEXT entry's offset field itself. -/
def DTable.get_row_offset (entries : List DTableHeaderEntry) (key : String) :
    Option DataRegion :=
  match bsearch (entries.map (fun e => e.key)) key with
  | some index =>
    some { start := (entries.getD index default).offset
           length :=
             if index + 1 = entries.length then none
             else some ((entries.getD (index + 1) default).offset) }
  | none => none

/-- `DTable::get_offset_from_index` (dtable.rs): the same region computation
from a known header index. -/
def DTable.get_offset_from_index (entries : List DTableHeaderEntry)
    (index : Nat) : DataRegion :=
  { start := (entries.getD index default).offset
    length :=
      if index + 1 = entries.length then none
      else some ((entries.getD (index + 1) default).offset) }

example :
    DTable.get_row_offset [⟨"a", 0⟩, ⟨"b", 100⟩, ⟨"c", 250⟩] "b"
    = some ⟨100, some 250⟩ := by decide

example :
    DTable.get_row_offset [⟨"a", 0⟩, ⟨"b", 100⟩, ⟨"c", 250⟩] "c"
    = some ⟨250, none⟩ := by decide

example :
    DTable.get_row_offset [⟨"a", 0⟩, ⟨"b", 100⟩, ⟨"c", 250⟩] "zz"
    = none := by decide

/-- The fold inside `DTable::from_vec` (dtable.rs) that peeks every cursor
and returns the set of cursor indices currently holding the minimum key,
with that key: smaller key replaces the accumulator, equal key is appended,
larger key is ignored. -/
def minKeyIndices (tables : List (List (String × DRow))) :
    Option (List Nat × String) :=
  (tables.enum).foldl (fun acc p =>
    match acc, p.2.head? with
    | some (ix, accKey), some e =>
      if strLt e.1 accKey then some ([p.1], e.1)
      else if e.1 = accKey then some (ix ++ [p.1], accKey)
      else some (ix, accKey)
    | some (ix, accKey), none => some (ix, accKey)
    | none, some e => some ([p.1], e.1)
    | none, none => none) none

/-- Advance the cursor of table `i`: the Rust code calls
`iterators[i].next()` and bumps `indices[i]`. -/
def advanceAt (tables : List (List (String × DRow))) (i : Nat) :
    List (List (String × DRow)) :=
  tables.set i ((tables.getD i []).tail)

/-- The merge loop of `DTable::from_vec` (dtable.rs). Each round finds the
minimum remaining key. With exactly one holder, that table's current row is
copied to the output and its cursor advanced; the byte copy of the region
is modelled as copying the stored row, which is exact when the copied row
sits at index 0 or at the last index of its table (as at every concrete
input used in this file) — for a middle index the real `io::copy` copies
the mis-sized region of `get_offset_from_index` (see C2), a copy that still
SUCCEEDS byte-wise, so the success/failure behaviour and the output row
count modelled here match the source everywhere. With several holders the
Rust code hits `panic!("Merging rows not yet implemented.")`, and an empty
holder set hits the other `panic!`; both panics are modelled as `none`.
`fuel` dominates the total number of remaining entries. -/
def DTableL.from_vecAux :
    Nat → List (List (String × DRow)) → List (String × DRow) →
    Option (List (String × DRow))
  | 0, _, _ => none
  | fuel + 1, tables, acc =>
    match minKeyIndices tables with
    | none => some acc
    | some (ixs, key) =>
      match ixs with
      | [i] =>
        DTableL.from_vecAux fuel (advanceAt tables i)
          (acc ++ [(key, ((tables.getD i []).headD ("", default)).2)])
      | _ => none

/-- `DTable::from_vec` (dtable.rs): merge a list of disktables into one. -/
def DTableL.from_vec (tables : List DTableL) : Option DTableL :=
  (DTableL.from_vecAux ((tables.map (fun t => t.entries.length)).sum + 1)
    (tables.map (fun t => t.entries)) []).map DTableL.mk

/-- `MRow::write_to_writer` (mtable.rs): an `MRow` is serialized as a `DRow`
whose parallel key and column arrays list the columns in map order. -/
def MRow.write_to_writer (r : MRow) : DRow :=
  ⟨r.columns.map Prod.fst, r.columns.map Prod.snd⟩

/-- `MTable::write_to_writer` (mtable.rs), at the logical level: the rows in
map order, each serialized after the previous one and indexed by one header
entry; the resulting data file plus header is exactly a disktable holding
those rows under those keys. -/
def MTable.write_to_writer (m : MTable) : DTableL :=
  ⟨m.rows.map (fun p => (p.1, p.2.write_to_writer))⟩

/-- Modelled from the spec: the `size` field of `MTable` is read by
`Base::check_size_limits` (base.rs) but the revision of mtable.rs in src/
does not contain it. The spec defines it as the running sum of
`len(col_name) + len(value_bytes)` over all writes since creation; since no
write ever removes an entry, that running sum equals this sum over the
entries currently stored (the spec's scenario S6 sizes, e.g. 1024 + 4 for
one 1024-byte value in column "data", agree). Column-name length is
modelled as the character count, which matches the UTF-8 byte count on the
ASCII keys used throughout. -/
def MTable.size (m : MTable) : Nat :=
  (m.rows.map (fun p =>
    (p.2.columns.map (fun q =>
      (q.2.entries.map (fun e => q.1.length + e.value.length)).sum)).sum)).sum

/-- `Base` (base.rs): the engine state. The commit log file is modelled as
the list of entries appended since it was last truncated. -/
structure BaseState where
  memtable : MTable
  disktables : List DTableL
  commitLog : List CommitLogEntry
  disktableIndex : Nat
  memtableSizeLimit : Nat
  disktableLimit : Nat
  deriving DecidableEq, Repr

/-- The `CommitLogEntry` built by `Base::commit` (base.rs). -/
def Base.commitEntry (row : String) (updates : List MUpdate)
    (timestamp : Nat) : CommitLogEntry :=
  ⟨row, timestamp, updates.map (fun u => (u.key, u.value))⟩

/-- `Base::merge_disktables` (base.rs): bump the index and replace the
disktable list with the single merged table; a merge failure is propagated
(`CorruptedFiles` in the source). -/
def Base.mergeDisktables (s : BaseState) : Option BaseState :=
  let s1 := { s with disktableIndex := s.disktableIndex + 1 }
  match DTableL.from_vec s1.disktables with
  | some d => some { s1 with disktables := [d] }
  | none => none

/-- `Base::empty_memtable` (base.rs): bump the index; if appending one more
disktable would exceed `disktable_limit`, first merge all disktables into
one; then flush the memtable as a new disktable, append it, replace the
memtable with a fresh one and truncate the commit log. -/
def Base.emptyMemtable (s : BaseState) : Option BaseState :=
  let s1 := { s with disktableIndex := s.disktableIndex + 1 }
  let s2? :=
    if s1.disktableLimit < s1.disktables.length + 1 then
      Base.mergeDisktables s1
    else some s1
  s2?.map (fun s2 =>
    { s2 with
      disktables := s2.disktables ++ [s2.memtable.write_to_writer]
      memtable := ⟨[]⟩
      commitLog := [] })

/-- `Base::check_size_limits` (base.rs): flush the memtable when its size
exceeds the limit. The source calls `.unwrap()` on the flush; that panic is
modelled as `none`. -/
def Base.check_size_limits (s : BaseState) : Option BaseState :=
  if s.memtableSizeLimit < s.memtable.size then Base.emptyMemtable s
  else some s

/-- `Base::insert` (base.rs): memtable insert first; on success append to
the commit log (`commitOk` models whether the log write and sync succeed —
on failure the result is `PartialCommit` and nothing further runs), then
check the size limits and return `Done`. -/
def Base.insert (s : BaseState) (row : String) (updates : List MUpdate)
    (timestamp : Nat) (commitOk : Bool) : Option (QueryResult × BaseState) :=
  match s.memtable.insert row updates timestamp with
  | .error .AlreadyExists => some (.RowAlreadyExists, s)
  | .error _ => some (.InternalError, s)
  | .ok mt =>
    let s1 := { s with memtable := mt }
    if commitOk then
      let s2 := { s1 with
        commitLog := s1.commitLog ++ [Base.commitEntry row updates timestamp] }
      match Base.check_size_limits s2 with
      | some s3 => some (.Done, s3)
      | none => none
    else some (.PartialCommit, s1)

/-- `Base::direct_update` (base.rs): apply the update to the memtable
without touching the commit log. -/
def Base.direct_update (s : BaseState) (row : String)
    (updates : List MUpdate) (timestamp : Nat) : QueryResult × BaseState :=
  match s.memtable.update row updates timestamp with
  | .ok mt => (.Done, { s with memtable := mt })
  | .error .NotFound => (.RowNotFound, s)
  | .error _ => (.InternalError, s)

/-- `Base::update` (base.rs): `direct_update`, then the same commit-log and
size-check sequence as `Base::insert`. -/
def Base.update (s : BaseState) (row : String) (updates : List MUpdate)
    (timestamp : Nat) (commitOk : Bool) : Option (QueryResult × BaseState) :=
  match Base.direct_update s row updates timestamp with
  | (.Done, s1) =>
    if commitOk then
      let s2 := { s1 with
        commitLog := s1.commitLog ++ [Base.commitEntry row updates timestamp] }
      match Base.check_size_limits s2 with
      | some s3 => some (.Done, s3)
      | none => none
    else some (.PartialCommit, s1)
  | (x, s1) => some (x, s1)

/-- The per-column winner scan of `Base::select` (base.rs): walk the
candidate rows, keeping the entry with the greatest timestamp that is
`≤ timestamp` and strictly greater than the best so far; the best timestamp
starts at 0. The Rust code keeps the winning row index and re-reads the
entry at the end; the model keeps the winning entry itself, which is the
entry at that index. -/
def selectScanAux (timestamp : Nat) :
    List (Option DEntry) → Nat × Option DEntry → Nat × Option DEntry
  | [], acc => acc
  | v :: rest, acc =>
    selectScanAux timestamp rest
      (match v with
       | some r =>
         if r.timestamp ≤ timestamp ∧ acc.1 < r.timestamp then
           (r.timestamp, some r)
         else acc
       | none => acc)

/-- The scan started from `newest_timestamp = 0`. -/
def selectScan (vals : List (Option DEntry)) (timestamp : Nat) :
    Nat × Option DEntry :=
  selectScanAux timestamp vals (0, none)

/-- The result-merging half of `Base::select` (base.rs, from the
`filter`/`collect` of the candidate rows onward), factored over the list of
per-source results so that its properties hold for every output the sources
can produce: drop the misses; with no hit return `RowNotFound`, otherwise
run the winner scan per requested column, answering `None` for a column
whose best timestamp stayed 0. -/
def Base.selectFrom (sources : List (Option (List (Option DEntry))))
    (cols : List String) (timestamp : Nat) : QueryResult :=
  let results := sources.filterMap id
  match results.length with
  | 0 => .RowNotFound
  | _ + 1 =>
    .Data ((List.range cols.length).map (fun i =>
      let scan := selectScan (results.map (fun r => r.getD i none)) timestamp
      if scan.1 = 0 then none
      else
        match scan.2 with
        | some r => some r.value
        | none => none))

/-- `Base::select` (base.rs): collect the memtable result and every
disktable result as the sources and merge them. -/
def Base.select (s : BaseState) (row : String) (cols : List String)
    (timestamp : Nat) : QueryResult :=
  Base.selectFrom
    (s.memtable.select row cols timestamp ::
      s.disktables.map (fun d => d.select row cols timestamp))
    cols timestamp

/-! ## Semantic views of the state, used to state the claims -/

/-- Non-strict timestamp order along a column's entry list:
`entries[i].timestamp ≤ entries[i+1].timestamp` for all valid `i`. -/
def tsSorted (es : List DEntry) : Prop :=
  es.Pairwise (fun a b => a.timestamp ≤ b.timestamp)

/-- The entry list stored in the memtable for `(row, col)`;
empty when either is absent. -/
def MTable.colEntries (m : MTable) (row col : String) : List DEntry :=
  match btGet m.rows row with
  | some r =>
    match btGet r.columns col with
    | some c => c.entries
    | none => []
  | none => []

/-- The column map of a `DRow`, read associatively: the parallel key and
column arrays, zipped. -/
def DRow.assocColumns (r : DRow) : List (String × DColumn) :=
  r.keys.zip r.columns

/-- The entry list stored in a disktable for `(row, col)`. -/
def DTableL.colEntries (d : DTableL) (row col : String) : List DEntry :=
  match btGet d.entries row with
  | some r =>
    match btGet r.assocColumns col with
    | some c => c.entries
    | none => []
  | none => []

/-- All entries stored for `(row, col)` across the memtable and every
disktable of the engine. -/
def storedEntries (s : BaseState) (row col : String) : List DEntry :=
  s.memtable.colEntries row col ++
    (s.disktables.map (fun d => d.colEntries row col)).flatten

/-- The row key is held by the memtable or by at least one disktable. -/
def rowPresent (s : BaseState) (row : String) : Prop :=
  (btGet s.memtable.rows row).isSome = true ∨
    ∃ d ∈ s.disktables, (btGet d.entries row).isSome = true

/-- Well-formedness of a memtable: every column's entries are in
timestamp order. -/
def MTable.WF (m : MTable) : Prop :=
  ∀ p ∈ m.rows, ∀ q ∈ p.2.columns, tsSorted q.2.entries

/-- Well-formedness of an on-disk row: strictly sorted key array, key and
column arrays of equal length, every column in timestamp order. -/
def DRow.WF (r : DRow) : Prop :=
  r.keys.Pairwise strLt ∧ r.keys.length = r.columns.length ∧
    ∀ c ∈ r.columns, tsSorted c.entries

/-- Well-formedness of a disktable: strictly sorted header keys and
well-formed rows. -/
def DTableL.WF (d : DTableL) : Prop :=
  (d.entries.map Prod.fst).Pairwise strLt ∧ ∀ p ∈ d.entries, p.2.WF

/-- Well-formedness of the engine state. -/
def BaseState.WF (s : BaseState) : Prop :=
  s.memtable.WF ∧ ∀ d ∈ s.disktables, d.WF

instance (m : MTable) : Decidable m.WF := by
  unfold MTable.WF tsSorted
  infer_instance

instance (r : DRow) : Decidable r.WF := by
  unfold DRow.WF tsSorted
  infer_instance

instance (d : DTableL) : Decidable d.WF := by
  unfold DTableL.WF
  infer_instance

instance (s : BaseState) : Decidable s.WF := by
  unfold BaseState.WF
  infer_instance

instance (s : BaseState) (row : String) : Decidable (rowPresent s row) := by
  unfold rowPresent
  infer_instance

/-! ## The key order -/

theorem strLt_iff (a b : String) : strLt a b ↔ a < b :=
  Iff.symm String.lt_iff_toList_lt

theorem strLt_trans {a b c : String} (h1 : strLt a b) (h2 : strLt b c) :
    strLt a c := by
  rw [strLt_iff] at h1 h2 ⊢
  exact lt_trans h1 h2

theorem strLt_ne {a b : String} (h : strLt a b) : a ≠ b := by
  rw [strLt_iff] at h
  exact ne_of_lt h

theorem strLt_asymm {a b : String} (h : strLt a b) : ¬ strLt b a := by
  rw [strLt_iff] at h ⊢
  exact not_lt_of_lt h

theorem strLt_trichotomy (a b : String) : strLt a b ∨ a = b ∨ strLt b a := by
  rw [strLt_iff, strLt_iff]
  exact lt_trichotomy a b

/-! ## Association-list lemmas -/

theorem btGet_eq_none_iff {α : Type} (pairs : List (String × α)) (key : String) :
    btGet pairs key = none ↔ ∀ p ∈ pairs, p.1 ≠ key := by
  induction pairs with
  | nil => simp [btGet]
  | cons hd tl ih =>
    obtain ⟨k, v⟩ := hd
    by_cases hk : key = k
    · subst hk
      simp [btGet]
    · simp [btGet, hk, ih]
      intro _
      exact fun h => absurd h.symm hk

theorem btGet_mem {α : Type} {pairs : List (String × α)} {key : String}
    {v : α} (h : btGet pairs key = some v) : (key, v) ∈ pairs := by
  induction pairs with
  | nil => simp [btGet] at h
  | cons hd tl ih =>
    obtain ⟨k, w⟩ := hd
    by_cases hk : key = k
    · subst hk
      simp [btGet] at h
      simp [h]
    · simp [btGet, hk] at h
      exact List.mem_cons_of_mem _ (ih h)

theorem getD_mem {α : Type} (l : List α) (d : α) (i : Nat)
    (h : i < l.length) : l.getD i d ∈ l := by
  rw [List.getD_eq_getElem l d h]
  exact l.getElem_mem h

theorem btGet_of_getD {α : Type} (pairs : List (String × α)) (d : String × α)
    (i : Nat) (hi : i < pairs.length)
    (hs : (pairs.map Prod.fst).Pairwise strLt) :
    btGet pairs (pairs.getD i d).1 = some (pairs.getD i d).2 := by
  induction pairs generalizing i with
  | nil => simp at hi
  | cons hd tl ih =>
    cases i with
    | zero =>
      simp [btGet]
    | succ j =>
      simp only [List.length_cons, Nat.succ_lt_succ_iff] at hi
      simp only [List.getD_cons_succ]
      have hne : (tl.getD j d).1 ≠ hd.1 := by
        have hmem : (tl.getD j d) ∈ tl := getD_mem tl d j hi
        have := (List.pairwise_cons.mp hs).1 (tl.getD j d).1
          (List.mem_map_of_mem Prod.fst hmem)
        exact fun he => strLt_ne this he.symm
      simp only [btGet, hne, if_neg hne]
      exact ih j hi (List.pairwise_cons.mp hs).2

theorem mem_btInsert {α : Type} (pairs : List (String × α)) (key : String)
    (v : α) (p : String × α) (h : p ∈ btInsert pairs key v) :
    p = (key, v) ∨ p ∈ pairs := by
  induction pairs with
  | nil => simp [btInsert] at h; simp [h]
  | cons hd tl ih =>
    obtain ⟨k, w⟩ := hd
    by_cases hk : key = k
    · simp [btInsert, hk] at h
      rcases h with h | h
      · left; simp [h, hk]
      · right; simp [h]
    · by_cases hlt : strLt key k
      · simp [btInsert, hk, hlt] at h
        rcases h with h | h | h
        · left; simp [h]
        · right; simp [h]
        · right; simp [h]
      · simp [btInsert, hk, hlt] at h
        rcases h with h | h
        · right; simp [h]
        · rcases ih h with h' | h'
          · left; exact h'
          · right; simp [h']

/-! ## The reverse timestamp scan -/

theorem largestIdxLE_none_iff (es : List DEntry) (t : Nat) :
    largestIdxLE es t = none ↔ ∀ e ∈ es, t < e.timestamp := by
  induction es with
  | nil => simp [largestIdxLE]
  | cons e rest ih =>
    simp only [largestIdxLE]
    cases hrest : largestIdxLE rest t with
    | some k =>
      simp only [reduceCtorEq, false_iff, not_forall]
      have hex : ¬ ∀ x ∈ rest, t < x.timestamp := by
        intro hall
        rw [ih.mpr hall] at hrest
        simp at hrest
      push_neg at hex
      obtain ⟨x, hx, hxt⟩ := hex
      exact ⟨x, ⟨List.mem_cons_of_mem _ hx, by omega⟩⟩
    | none =>
      by_cases ht : e.timestamp ≤ t
      · simp only [ht, if_pos, reduceCtorEq, false_iff, not_forall]
        exact ⟨e, ⟨List.mem_cons_self _ _, by omega⟩⟩
      · simp only [ht, if_neg, not_false_iff, true_iff]
        intro x hx
        rcases List.mem_cons.mp hx with h | h
        · subst h; omega
        · exact ih.mp hrest x h

theorem largestIdxLE_some (es : List DEntry) (t : Nat) (i : Nat)
    (h : largestIdxLE es t = some i) :
    i < es.length ∧ (es.getD i default).timestamp ≤ t ∧
      ∀ j, i < j → j < es.length → t < (es.getD j default).timestamp := by
  induction es generalizing i with
  | nil => simp [largestIdxLE] at h
  | cons e rest ih =>
    simp only [largestIdxLE] at h
    cases hrest : largestIdxLE rest t with
    | some k =>
      rw [hrest] at h
      simp only [Option.some.injEq] at h
      subst h
      obtain ⟨hk, hkt, hgt⟩ := ih k hrest
      refine ⟨by simpa using Nat.succ_lt_succ hk, by simpa using hkt, ?_⟩
      intro j hj hjlen
      cases j with
      | zero => omega
      | succ j' =>
        simp only [List.getD_cons_succ]
        exact hgt j' (by omega) (by simpa using hjlen)
    | none =>
      rw [hrest] at h
      by_cases ht : e.timestamp ≤ t
      · simp only [ht, if_pos] at h
        simp only [Option.some.injEq] at h
        subst h
        refine ⟨by simp, by simpa using ht, ?_⟩
        intro j hj hjlen
        cases j with
        | zero => omega
        | succ j' =>
          simp only [List.getD_cons_succ]
          have hall := (largestIdxLE_none_iff rest t).mp hrest
          exact hall _ (getD_mem rest default j' (by simpa using hjlen))
      · simp [ht] at h

theorem largestIdxLE_isSome (es : List DEntry) (t : Nat)
    (h : ∃ e ∈ es, e.timestamp ≤ t) : (largestIdxLE es t).isSome = true := by
  cases hl : largestIdxLE es t with
  | some k => simp
  | none =>
    obtain ⟨e, he, het⟩ := h
    have := (largestIdxLE_none_iff es t).mp hl e he
    omega

/-! ## Timestamp order is preserved by the memtable write path -/

theorem tsSorted_insertIdx (es : List DEntry) (t : Nat) (v : List Nat)
    (hs : tsSorted es) :
    tsSorted (List.insertIdx (insertionIndex es t) ⟨t, v⟩ es) := by
  induction es with
  | nil =>
    simp [insertionIndex, largestIdxLE, tsSorted]
  | cons e rest ih =>
    have hhead := (List.pairwise_cons.mp hs).1
    have htail : tsSorted rest := (List.pairwise_cons.mp hs).2
    cases hrest : largestIdxLE rest t with
    | some k =>
      obtain ⟨hk, hkt, -⟩ := largestIdxLE_some rest t k hrest
      have hidx : insertionIndex (e :: rest) t = (insertionIndex rest t) + 1 := by
        simp [insertionIndex, largestIdxLE, hrest]
      have hidx' : insertionIndex rest t = k + 1 := by
        simp [insertionIndex, hrest]
      rw [hidx]
      rw [List.insertIdx_succ_cons]
      refine List.pairwise_cons.mpr ⟨?_, ih htail⟩
      intro y hy
      have hle : insertionIndex rest t ≤ rest.length := by omega
      rcases (List.mem_insertIdx hle).mp hy with h | h
      · subst h
        have h1 : e.timestamp ≤ (rest.getD k default).timestamp :=
          hhead _ (getD_mem rest default k hk)
        show e.timestamp ≤ t
        omega
      · exact hhead y h
    | none =>
      by_cases ht : e.timestamp ≤ t
      · have hidx : insertionIndex (e :: rest) t = 1 := by
          simp [insertionIndex, largestIdxLE, hrest, ht]
        rw [hidx]
        rw [List.insertIdx_succ_cons, List.insertIdx_zero]
        refine List.pairwise_cons.mpr ⟨?_, List.pairwise_cons.mpr ⟨?_, htail⟩⟩
        · intro y hy
          rcases List.mem_cons.mp hy with h | h
          · subst h; exact ht
          · exact hhead y h
        · intro y hy
          have := (largestIdxLE_none_iff rest t).mp hrest y hy
          show t ≤ y.timestamp
          omega
      · have hidx : insertionIndex (e :: rest) t = 0 := by
          simp [insertionIndex, largestIdxLE, hrest, ht]
        rw [hidx]
        rw [List.insertIdx_zero]
        refine List.pairwise_cons.mpr ⟨?_, hs⟩
        intro y hy
        show t ≤ y.timestamp
        rcases List.mem_cons.mp hy with h | h
        · subst h; omega
        · have h1 := (largestIdxLE_none_iff rest t).mp hrest y h
          omega

/-! ## Characterizing `DColumn::get_value` -/

theorem tsSorted_getD (es : List DEntry) (hs : tsSorted es) (i j : Nat)
    (hij : i ≤ j) (hj : j < es.length) :
    (es.getD i default).timestamp ≤ (es.getD j default).timestamp := by
  rcases Nat.eq_or_lt_of_le hij with h | h
  · subst h; exact le_refl _
  · have hi : i < es.length := lt_trans h hj
    rw [List.getD_eq_getElem es default hi, List.getD_eq_getElem es default hj]
    exact List.pairwise_iff_get.mp hs ⟨i, hi⟩ ⟨j, hj⟩ h

theorem get_value_empty (c : DColumn) (t : Nat) (h : c.entries = []) :
    c.get_value t = .error .NotFound := by
  simp [DColumn.get_value, h]

theorem get_value_eq_ok (c : DColumn) (t : Nat) (hne : c.entries ≠ []) :
    c.get_value t =
      .ok (c.entries.getD
        ((largestIdxLE c.entries t).getD (c.entries.length - 1)) default) := by
  obtain ⟨e, rest, h⟩ := List.exists_cons_of_ne_nil hne
  simp only [DColumn.get_value, h]
  rfl

theorem get_value_mem (c : DColumn) (t : Nat) (e : DEntry)
    (h : c.get_value t = .ok e) : e ∈ c.entries := by
  have hne : c.entries ≠ [] := by
    intro hnil
    rw [get_value_empty c t hnil] at h
    simp at h
  rw [get_value_eq_ok c t hne] at h
  simp only [Except.ok.injEq] at h
  subst h
  cases hl : largestIdxLE c.entries t with
  | some i =>
    obtain ⟨hi, -, -⟩ := largestIdxLE_some c.entries t i hl
    simp only [hl, Option.getD_some]
    exact getD_mem _ _ _ hi
  | none =>
    simp only [hl, Option.getD_none]
    have hlen : 0 < c.entries.length := List.length_pos.mpr hne
    exact getD_mem _ _ _ (by omega)

theorem get_value_max (c : DColumn) (t : Nat) (e : DEntry)
    (hs : tsSorted c.entries) (h : c.get_value t = .ok e)
    (ht : e.timestamp ≤ t) :
    ∀ x ∈ c.entries, x.timestamp ≤ t → x.timestamp ≤ e.timestamp := by
  have hne : c.entries ≠ [] := by
    intro hnil
    rw [get_value_empty c t hnil] at h
    simp at h
  rw [get_value_eq_ok c t hne] at h
  simp only [Except.ok.injEq] at h
  cases hl : largestIdxLE c.entries t with
  | some i =>
    rw [hl] at h
    simp only [Option.getD_some] at h
    obtain ⟨hi, hit, hgt⟩ := largestIdxLE_some c.entries t i hl
    intro x hx hxt
    obtain ⟨⟨j, hj⟩, hget⟩ := List.mem_iff_get.mp hx
    have hxd : c.entries.getD j default = x := by
      rw [List.getD_eq_getElem c.entries default hj]
      simpa using hget
    by_cases hji : j ≤ i
    · have := tsSorted_getD c.entries hs j i hji hi
      rw [hxd, h] at this
      exact this
    · exfalso
      have := hgt j (by omega) hj
      rw [hxd] at this
      omega
  | none =>
    exfalso
    have hall := (largestIdxLE_none_iff c.entries t).mp hl
    have := hall e (get_value_mem c t e (by rw [get_value_eq_ok c t hne]; exact congrArg Except.ok h))
    omega

theorem get_value_of_exists_le (c : DColumn) (t : Nat)
    (h : ∃ e ∈ c.entries, e.timestamp ≤ t) :
    ∃ e, c.get_value t = .ok e ∧ e ∈ c.entries ∧ e.timestamp ≤ t := by
  have hne : c.entries ≠ [] := by
    intro hnil
    rw [hnil] at h
    simp at h
  cases hl : largestIdxLE c.entries t with
  | some i =>
    obtain ⟨hi, hit, -⟩ := largestIdxLE_some c.entries t i hl
    refine ⟨c.entries.getD i default, ?_, getD_mem _ _ _ hi, hit⟩
    rw [get_value_eq_ok c t hne, hl]
    rfl
  | none =>
    exfalso
    obtain ⟨e, he, het⟩ := h
    have := (largestIdxLE_none_iff c.entries t).mp hl e he
    omega

theorem get_value_all_gt (c : DColumn) (t : Nat) (hne : c.entries ≠ [])
    (hall : ∀ e ∈ c.entries, t < e.timestamp) :
    c.get_value t = .ok (c.entries.getD (c.entries.length - 1) default) := by
  rw [get_value_eq_ok c t hne]
  rw [(largestIdxLE_none_iff c.entries t).mpr hall]
  rfl

/-! ## Correctness of the shared binary search -/

theorem strSorted_getD (ks : List String) (hs : ks.Pairwise strLt) (i j : Nat)
    (hij : i < j) (hj : j < ks.length) :
    strLt (ks.getD i "") (ks.getD j "") := by
  have hi : i < ks.length := lt_trans hij hj
  rw [List.getD_eq_getElem ks "" hi, List.getD_eq_getElem ks "" hj]
  exact List.pairwise_iff_get.mp hs ⟨i, hi⟩ ⟨j, hj⟩ hij

theorem bsearchAux_spec (ks : List String) (key : String)
    (hs : ks.Pairwise strLt) :
    ∀ (fuel : Nat) (l r : Int), 0 ≤ l → r < (ks.length : Int) →
    (r + 1 - l).toNat < fuel →
    (∀ j : Nat, j < ks.length → ks.getD j "" = key →
      l ≤ (j : Int) ∧ (j : Int) ≤ r) →
    (match bsearchAux ks key fuel l r with
     | some i => i < ks.length ∧ ks.getD i "" = key
     | none => ∀ j : Nat, j < ks.length → ks.getD j "" ≠ key) := by
  intro fuel
  induction fuel with
  | zero =>
    intro l r _ _ hfuel _
    omega
  | succ fuel ih =>
    intro l r hl hr hfuel hwin
    by_cases hlr : l ≤ r
    · have hidx : ((l + r).toNat / 2 : Int) ≤ r ∧ l ≤ ((l + r).toNat / 2 : Int) := by
        omega
      simp only [bsearchAux, if_pos hlr]
      set index : Nat := (l + r).toNat / 2 with hindexdef
      have hilen : index < ks.length := by omega
      by_cases hk : key = ks.getD index ""
      · simp only [if_pos hk]
        exact ⟨hilen, hk.symm⟩
      · simp only [if_neg hk]
        by_cases hlt : strLt (ks.getD index "") key
        · simp only [if_pos hlt]
          have hwin' : ∀ j : Nat, j < ks.length → ks.getD j "" = key →
              ((index : Int) + 1) ≤ (j : Int) ∧ (j : Int) ≤ r := by
            intro j hj hjk
            obtain ⟨h1, h2⟩ := hwin j hj hjk
            refine ⟨?_, h2⟩
            by_contra hcon
            have hji : j ≤ index := by omega
            rcases Nat.eq_or_lt_of_le hji with h | h
            · exact hk (by rw [← h, hjk])
            · have := strSorted_getD ks hs j index h hilen
              rw [hjk] at this
              exact strLt_asymm this hlt
          have := ih ((index : Int) + 1) r (by omega) hr (by omega) hwin'
          exact this
        · simp only [if_neg hlt]
          have hklt : strLt key (ks.getD index "") := by
            rcases strLt_trichotomy key (ks.getD index "") with h | h | h
            · exact h
            · exact absurd h hk
            · exact absurd h hlt
          have hwin' : ∀ j : Nat, j < ks.length → ks.getD j "" = key →
              l ≤ (j : Int) ∧ (j : Int) ≤ (index : Int) - 1 := by
            intro j hj hjk
            obtain ⟨h1, h2⟩ := hwin j hj hjk
            refine ⟨h1, ?_⟩
            by_contra hcon
            have hji : index ≤ j := by omega
            rcases Nat.eq_or_lt_of_le hji with h | h
            · exact hk (by rw [h, hjk])
            · have := strSorted_getD ks hs index j h hj
              rw [hjk] at this
              exact strLt_asymm this hklt
          have := ih l ((index : Int) - 1) hl (by omega) (by omega) hwin'
          exact this
    · simp only [bsearchAux, if_neg hlr]
      intro j hj hjk
      obtain ⟨h1, h2⟩ := hwin j hj hjk
      omega

theorem bsearch_spec (ks : List String) (key : String)
    (hs : ks.Pairwise strLt) :
    match bsearch ks key with
    | some i => i < ks.length ∧ ks.getD i "" = key
    | none => ∀ j : Nat, j < ks.length → ks.getD j "" ≠ key := by
  refine bsearchAux_spec ks key hs (ks.length + 1) 0 ((ks.length : Int) - 1)
    (by omega) (by omega) (by omega) ?_
  intro j hj _
  omega

/-! ## The table-level lookups, read associatively -/

theorem get_row_eq_btGet (d : DTableL) (key : String)
    (hs : (d.entries.map Prod.fst).Pairwise strLt) :
    d.get_row key =
      (match btGet d.entries key with
       | some r => .ok r
       | none => .error .NotFound) := by
  unfold DTableL.get_row
  have hspec := bsearch_spec (d.entries.map Prod.fst) key hs
  cases hb : bsearch (d.entries.map Prod.fst) key with
  | some i =>
    rw [hb] at hspec
    obtain ⟨hi, hik⟩ := hspec
    rw [List.length_map] at hi
    have hkey : (d.entries.getD i ("", default)).1 = key := by
      have h1 : (d.entries.map Prod.fst).getD i ""
          = (d.entries.getD i ("", default)).1 := by
        rw [List.getD_eq_getElem _ "" (by simpa using hi),
          List.getD_eq_getElem _ _ hi, List.getElem_map]
      rw [← hik, h1]
    rw [← hkey]
    rw [btGet_of_getD d.entries ("", default) i hi hs]
  | none =>
    rw [hb] at hspec
    have : btGet d.entries key = none := by
      rw [btGet_eq_none_iff]
      intro p hp hk
      obtain ⟨⟨j, hj⟩, hget⟩ := List.mem_iff_get.mp hp
      have hplen : j < (d.entries.map Prod.fst).length := by simpa using hj
      apply hspec j (by simpa using hj)
      rw [List.getD_eq_getElem _ "" hplen, List.getElem_map]
      have hpj : d.entries[j] = p := by simpa using hget
      rw [hpj]
      exact hk
    rw [this]

theorem get_column_eq_assoc (r : DRow) (key : String)
    (hks : r.keys.Pairwise strLt) (hlen : r.keys.length = r.columns.length) :
    r.get_column key =
      (match btGet r.assocColumns key with
       | some c => .ok c
       | none => .error .NotFound) := by
  unfold DRow.get_column DRow.assocColumns
  have hmapfst : (r.keys.zip r.columns).map Prod.fst = r.keys :=
    List.map_fst_zip r.keys r.columns (le_of_eq hlen)
  have hziplen : (r.keys.zip r.columns).length = r.keys.length := by
    rw [List.length_zip]
    omega
  have hspec := bsearch_spec r.keys key hks
  cases hb : bsearch r.keys key with
  | some i =>
    rw [hb] at hspec
    obtain ⟨hi, hik⟩ := hspec
    have hizip : i < (r.keys.zip r.columns).length := by omega
    have hkey : ((r.keys.zip r.columns).getD i ("", ⟨[]⟩)).1 = key := by
      rw [List.getD_eq_getElem _ _ hizip]
      rw [List.getElem_zip]
      rw [← hik, List.getD_eq_getElem _ "" hi]
    rw [← hkey]
    rw [btGet_of_getD (r.keys.zip r.columns) ("", ⟨[]⟩) i hizip
      (by rw [hmapfst]; exact hks)]
    have : ((r.keys.zip r.columns).getD i ("", ⟨[]⟩)).2
        = r.columns.getD i ⟨[]⟩ := by
      rw [List.getD_eq_getElem _ _ hizip, List.getElem_zip,
        List.getD_eq_getElem _ _ (by omega)]
    rw [this]
  | none =>
    rw [hb] at hspec
    have : btGet (r.keys.zip r.columns) key = none := by
      rw [btGet_eq_none_iff]
      intro p hp
      obtain ⟨⟨j, hj⟩, hget⟩ := List.mem_iff_get.mp hp
      have hjk : j < r.keys.length := by omega
      have := hspec j hjk
      rw [List.getD_eq_getElem _ "" hjk] at this
      intro hk
      apply this
      rw [← hk]
      have hp : p = (r.keys.zip r.columns)[j] := by
        rw [← hget]
        simp [List.get_eq_getElem]
      rw [hp, List.getElem_zip]
    rw [this]

/-! ## The per-column merge of `Base::select` -/

/-- What one source contributes to the per-column merge: any reported entry
is stored there; a reported entry within the timestamp bound dominates every
stored entry within the bound; and when some stored entry is within the
bound, a dominating one is reported. -/
def GoodPair (T : Nat) (E : List DEntry) (rep : Option DEntry) : Prop :=
  (∀ e, rep = some e → e ∈ E) ∧
  (∀ e, rep = some e → e.timestamp ≤ T →
    ∀ x ∈ E, x.timestamp ≤ T → x.timestamp ≤ e.timestamp) ∧
  ((∃ x ∈ E, x.timestamp ≤ T) →
    ∃ e, rep = some e ∧ e.timestamp ≤ T ∧
      ∀ x ∈ E, x.timestamp ≤ T → x.timestamp ≤ e.timestamp)

theorem goodPair_none (T : Nat) (rep : Option DEntry) (h : rep = none) :
    GoodPair T [] rep := by
  subst h
  refine ⟨by simp, by simp, ?_⟩
  intro hx
  simp at hx

/-- The stored entries of an optional column. -/
def colOptEntries : Option DColumn → List DEntry
  | some c => c.entries
  | none => []

/-- What a source reports for an optional column: the `.ok` result of
`DColumn::get_value`, or nothing. -/
def colOptReported (T : Nat) : Option DColumn → Option DEntry
  | some c => (c.get_value T).toOption
  | none => none

theorem goodPair_of_colOpt (T : Nat) (copt : Option DColumn)
    (hsort : ∀ c, copt = some c → tsSorted c.entries) :
    GoodPair T (colOptEntries copt) (colOptReported T copt) := by
  cases copt with
  | none =>
    refine ⟨by simp [colOptReported], by simp [colOptReported], ?_⟩
    intro h
    simp [colOptEntries] at h
  | some c =>
    have hcs : tsSorted c.entries := hsort c rfl
    show GoodPair T c.entries (c.get_value T).toOption
    refine ⟨?_, ?_, ?_⟩
    · intro e he
      simp only [Except.toOption] at he
      cases hv : c.get_value T with
      | ok v =>
        rw [hv] at he
        simp at he
        subst he
        exact get_value_mem c T v hv
      | error err => rw [hv] at he; simp at he
    · intro e he het
      simp only [Except.toOption] at he
      cases hv : c.get_value T with
      | ok v =>
        rw [hv] at he
        simp at he
        subst he
        exact get_value_max c T v hcs hv het
      | error err => rw [hv] at he; simp at he
    · intro hex
      obtain ⟨e, hv, hmem, het⟩ := get_value_of_exists_le c T hex
      exact ⟨e, by simp [hv, Except.toOption],
        het, get_value_max c T e hcs hv het⟩

theorem selectScanAux_spec (T : Nat) (vals : List (Option DEntry)) :
    ∀ acc : Nat × Option DEntry,
    (selectScanAux T vals acc = acc ∨
      ∃ e, some e ∈ vals ∧ selectScanAux T vals acc = (e.timestamp, some e) ∧
        e.timestamp ≤ T ∧ acc.1 < e.timestamp) ∧
    (∀ e, some e ∈ vals → e.timestamp ≤ T →
      e.timestamp ≤ (selectScanAux T vals acc).1) ∧
    acc.1 ≤ (selectScanAux T vals acc).1 := by
  induction vals with
  | nil =>
    intro acc
    refine ⟨Or.inl rfl, ?_, le_refl _⟩
    intro e he
    simp at he
  | cons v rest ih =>
    intro acc
    cases v with
    | none =>
      obtain ⟨h1, h2, h3⟩ := ih acc
      refine ⟨?_, ?_, ?_⟩
      · show selectScanAux T rest acc = acc ∨ _
        rcases h1 with h | ⟨e, he, heq, het, hgt⟩
        · exact Or.inl h
        · exact Or.inr ⟨e, List.mem_cons_of_mem _ he, heq, het, hgt⟩
      · intro e he het
        rcases List.mem_cons.mp he with h | h
        · simp at h
        · exact h2 e h het
      · exact h3
    | some r =>
      by_cases hcond : r.timestamp ≤ T ∧ acc.1 < r.timestamp
      · have hstep : selectScanAux T (some r :: rest) acc
            = selectScanAux T rest (r.timestamp, some r) := by
          simp [selectScanAux, hcond]
        obtain ⟨h1, h2, h3⟩ := ih (r.timestamp, some r)
        refine ⟨?_, ?_, ?_⟩
        · rw [hstep]
          rcases h1 with h | ⟨e, he, heq, het, hgt⟩
          · exact Or.inr ⟨r, List.mem_cons_self _ _, h, hcond.1, hcond.2⟩
          · exact Or.inr ⟨e, List.mem_cons_of_mem _ he, heq, het,
              lt_trans hcond.2 hgt⟩
        · intro e he het
          rw [hstep]
          rcases List.mem_cons.mp he with h | h
          · simp only [Option.some.injEq] at h
            subst h
            exact h3
          · exact h2 e h het
        · rw [hstep]
          exact le_trans (le_of_lt hcond.2) h3
      · have hstep : selectScanAux T (some r :: rest) acc
            = selectScanAux T rest acc := by
          simp [selectScanAux, hcond]
        obtain ⟨h1, h2, h3⟩ := ih acc
        refine ⟨?_, ?_, ?_⟩
        · rw [hstep]
          rcases h1 with h | ⟨e, he, heq, het, hgt⟩
          · exact Or.inl h
          · exact Or.inr ⟨e, List.mem_cons_of_mem _ he, heq, het, hgt⟩
        · intro e he het
          rw [hstep]
          rcases List.mem_cons.mp he with h | h
          · simp only [Option.some.injEq] at h
            subst h
            have hacc : e.timestamp ≤ acc.1 := by
              rcases not_and_or.mp hcond with h' | h'
              · exact absurd het h'
              · omega
            exact le_trans hacc h3
          · exact h2 e h het
        · rw [hstep]
          exact h3

theorem scan_union (T : Nat) (pairs : List (List DEntry × Option DEntry))
    (hAll : ∀ p ∈ pairs, GoodPair T p.1 p.2) :
    ((selectScan (pairs.map (fun p => p.2)) T).1 = 0 →
      ∀ e ∈ (pairs.map (fun p => p.1)).flatten,
        ¬(0 < e.timestamp ∧ e.timestamp ≤ T)) ∧
    (0 < (selectScan (pairs.map (fun p => p.2)) T).1 →
      ∃ e ∈ (pairs.map (fun p => p.1)).flatten,
        (selectScan (pairs.map (fun p => p.2)) T).2 = some e ∧
        0 < e.timestamp ∧ e.timestamp ≤ T ∧
        ∀ x ∈ (pairs.map (fun p => p.1)).flatten,
          x.timestamp ≤ T → x.timestamp ≤ e.timestamp) := by
  obtain ⟨h1, h2, h3⟩ :=
    selectScanAux_spec T (pairs.map (fun p => p.2)) (0, none)
  constructor
  · intro hz e he hbad
    obtain ⟨E, hE, heE⟩ := List.mem_flatten.mp he
    obtain ⟨p, hp, hpE⟩ := List.mem_map.mp hE
    obtain ⟨-, -, hcomp⟩ := hAll p hp
    obtain ⟨w, hw, hwt, hwmax⟩ := hcomp ⟨e, by rw [hpE]; exact heE, hbad.2⟩
    have hwrep : some w ∈ pairs.map (fun p => p.2) := by
      refine List.mem_map.mpr ⟨p, hp, ?_⟩
      rw [hw]
    have := h2 w hwrep hwt
    have hew : e.timestamp ≤ w.timestamp := hwmax e (by rw [hpE]; exact heE) hbad.2
    rw [show selectScanAux T (pairs.map (fun p => p.2)) (0, none)
      = selectScan (pairs.map (fun p => p.2)) T from rfl] at this
    omega
  · intro hpos
    rcases h1 with h | ⟨e, he, heq, het, hgt⟩
    · rw [show selectScanAux T (pairs.map (fun p => p.2)) (0, none)
        = selectScan (pairs.map (fun p => p.2)) T from rfl] at h
      rw [h] at hpos
      simp at hpos
    · obtain ⟨p, hp, hpe⟩ := List.mem_map.mp he
      obtain ⟨hsound, -, -⟩ := hAll p hp
      have hmem : e ∈ p.1 := hsound e hpe
      have heq' : selectScan (pairs.map (fun p => p.2)) T
          = (e.timestamp, some e) := heq
      refine ⟨e, ?_, by rw [heq'], by simp at hgt; omega, het, ?_⟩
      · exact List.mem_flatten.mpr
          ⟨p.1, List.mem_map.mpr ⟨p, hp, rfl⟩, hmem⟩
      · intro x hx hxt
        obtain ⟨E, hE, hxE⟩ := List.mem_flatten.mp hx
        obtain ⟨q, hq, hqE⟩ := List.mem_map.mp hE
        obtain ⟨-, -, hcomp⟩ := hAll q hq
        obtain ⟨w, hw, hwt, hwmax⟩ := hcomp ⟨x, by rw [hqE]; exact hxE, hxt⟩
        have hwrep : some w ∈ pairs.map (fun p => p.2) := by
          refine List.mem_map.mpr ⟨q, hq, ?_⟩
          rw [hw]
        have hscan := h2 w hwrep hwt
        rw [show selectScanAux T (pairs.map (fun p => p.2)) (0, none)
          = selectScan (pairs.map (fun p => p.2)) T from rfl, heq'] at hscan
        have hxw : x.timestamp ≤ w.timestamp :=
          hwmax x (by rw [hqE]; exact hxE) hxt
        simp at hscan
        omega

theorem scan_filterMap (T : Nat) (i : Nat)
    (srcs : List (Option (List (Option DEntry)))) :
    ∀ acc,
    selectScanAux T ((srcs.filterMap id).map (fun r => r.getD i none)) acc
      = selectScanAux T (srcs.map (fun o =>
          match o with
          | some vals => vals.getD i none
          | none => none)) acc := by
  induction srcs with
  | nil => intro acc; rfl
  | cons o rest ih =>
    intro acc
    cases o with
    | none =>
      show selectScanAux T ((rest.filterMap id).map (fun r => r.getD i none)) acc
        = selectScanAux T (none :: rest.map _) acc
      rw [ih acc]
      rfl
    | some vals =>
      show selectScanAux T (vals.getD i none :: _) acc = _
      simp only [selectScanAux, List.map_cons]
      exact ih _

theorem mtable_select_none_iff (m : MTable) (row : String)
    (cols : List String) (T : Nat) :
    m.select row cols T = none ↔ btGet m.rows row = none := by
  unfold MTable.select
  cases btGet m.rows row with
  | none => simp
  | some r => simp

theorem dtable_select_none_iff (d : DTableL) (row : String)
    (cols : List String) (T : Nat)
    (hs : (d.entries.map Prod.fst).Pairwise strLt) :
    d.select row cols T = none ↔ btGet d.entries row = none := by
  unfold DTableL.select
  rw [get_row_eq_btGet d row hs]
  cases btGet d.entries row with
  | none => simp
  | some r => simp

theorem mtable_reported (m : MTable) (row : String) (cols : List String)
    (T : Nat) (hwf : m.WF) (i : Nat) (hi : i < cols.length) :
    GoodPair T (m.colEntries row (cols.getD i ""))
      (match m.select row cols T with
       | some vals => vals.getD i none
       | none => none) := by
  unfold MTable.select MTable.colEntries
  cases hrow : btGet m.rows row with
  | none => exact goodPair_none T _ rfl
  | some r =>
    have hvals : ((cols.map (fun column =>
        match btGet r.columns column with
        | some c => (c.get_value T).toOption
        | none => none)).getD i none)
        = (match btGet r.columns (cols.getD i "") with
           | some c => (c.get_value T).toOption
           | none => none) := by
      rw [List.getD_eq_getElem _ none (by simpa using hi), List.getElem_map,
        List.getD_eq_getElem _ "" hi]
    simp only [hvals]
    show GoodPair T (colOptEntries (btGet r.columns (cols.getD i "")))
      (colOptReported T (btGet r.columns (cols.getD i "")))
    exact goodPair_of_colOpt T (btGet r.columns (cols.getD i ""))
      (fun c hc => hwf (row, r) (btGet_mem hrow) (cols.getD i "", c)
        (btGet_mem hc))

theorem dtable_reported (d : DTableL) (row : String) (cols : List String)
    (T : Nat) (hwf : d.WF) (i : Nat) (hi : i < cols.length) :
    GoodPair T (d.colEntries row (cols.getD i ""))
      (match d.select row cols T with
       | some vals => vals.getD i none
       | none => none) := by
  unfold DTableL.select DTableL.colEntries
  rw [get_row_eq_btGet d row hwf.1]
  cases hrow : btGet d.entries row with
  | none => exact goodPair_none T _ rfl
  | some r =>
    have hrwf : r.WF := hwf.2 (row, r) (btGet_mem hrow)
    have hvals : ((cols.map (fun col =>
        (r.get_value col T).toOption)).getD i none)
        = (r.get_value (cols.getD i "") T).toOption := by
      rw [List.getD_eq_getElem _ none (by simpa using hi), List.getElem_map,
        List.getD_eq_getElem _ "" hi]
    simp only [hvals]
    unfold DRow.get_value
    rw [get_column_eq_assoc r (cols.getD i "") hrwf.1 hrwf.2.1]
    cases hcol : btGet r.assocColumns (cols.getD i "") with
    | none => exact goodPair_none T _ rfl
    | some c =>
      have hcs : tsSorted c.entries := by
        refine hrwf.2.2 c ?_
        have := btGet_mem hcol
        exact (List.of_mem_zip this).2
      show GoodPair T (colOptEntries (some c)) (colOptReported T (some c))
      exact goodPair_of_colOpt T (some c) (fun x hx => by
        simp only [Option.some.injEq] at hx
        rw [← hx]
        exact hcs)

theorem base_scan_column (s : BaseState) (row : String) (cols : List String)
    (T : Nat) (hwf : s.WF) (i : Nat) (hi : i < cols.length) :
    ((selectScan (((s.memtable.select row cols T ::
        s.disktables.map (fun d => d.select row cols T)).filterMap id).map
          (fun r => r.getD i none)) T).1 = 0 →
      ∀ e ∈ storedEntries s row (cols.getD i ""),
        ¬(0 < e.timestamp ∧ e.timestamp ≤ T)) ∧
    (0 < (selectScan (((s.memtable.select row cols T ::
        s.disktables.map (fun d => d.select row cols T)).filterMap id).map
          (fun r => r.getD i none)) T).1 →
      ∃ e ∈ storedEntries s row (cols.getD i ""),
        (selectScan (((s.memtable.select row cols T ::
          s.disktables.map (fun d => d.select row cols T)).filterMap id).map
            (fun r => r.getD i none)) T).2 = some e ∧
        0 < e.timestamp ∧ e.timestamp ≤ T ∧
        ∀ x ∈ storedEntries s row (cols.getD i ""),
          x.timestamp ≤ T → x.timestamp ≤ e.timestamp) := by
  have hpairs := scan_union T
    ((s.memtable.colEntries row (cols.getD i ""),
       (match s.memtable.select row cols T with
        | some vals => vals.getD i none
        | none => none)) ::
      s.disktables.map (fun d => (d.colEntries row (cols.getD i ""),
       (match d.select row cols T with
        | some vals => vals.getD i none
        | none => none))))
    (by
      intro p hp
      rcases List.mem_cons.mp hp with h | h
      · rw [h]
        exact mtable_reported s.memtable row cols T hwf.1 i hi
      · obtain ⟨d, hd, hdp⟩ := List.mem_map.mp h
        rw [← hdp]
        exact dtable_reported d row cols T (hwf.2 d hd) i hi)
  have hsnd : (((s.memtable.colEntries row (cols.getD i ""),
       (match s.memtable.select row cols T with
        | some vals => vals.getD i none
        | none => none)) ::
      s.disktables.map (fun d => (d.colEntries row (cols.getD i ""),
       (match d.select row cols T with
        | some vals => vals.getD i none
        | none => none)))).map (fun p => p.2))
      = (s.memtable.select row cols T ::
          s.disktables.map (fun d => d.select row cols T)).map (fun o =>
            match o with
            | some vals => vals.getD i none
            | none => none) := by
    simp only [List.map_cons, List.map_map]
    rfl
  have hfst : ((((s.memtable.colEntries row (cols.getD i ""),
       (match s.memtable.select row cols T with
        | some vals => vals.getD i none
        | none => none)) ::
      s.disktables.map (fun d => (d.colEntries row (cols.getD i ""),
       (match d.select row cols T with
        | some vals => vals.getD i none
        | none => none)))).map (fun p => p.1)).flatten)
      = storedEntries s row (cols.getD i "") := by
    simp only [List.map_cons, List.map_map, List.flatten_cons]
    rfl
  have hscan : selectScan (((s.memtable.select row cols T ::
      s.disktables.map (fun d => d.select row cols T)).filterMap id).map
        (fun r => r.getD i none)) T
      = selectScan ((s.memtable.select row cols T ::
          s.disktables.map (fun d => d.select row cols T)).map (fun o =>
            match o with
            | some vals => vals.getD i none
            | none => none)) T :=
    scan_filterMap T i _ (0, none)
  rw [hsnd, hfst] at hpairs
  rw [hscan]
  exact hpairs

theorem sources_none_iff (s : BaseState) (row : String) (cols : List String)
    (T : Nat) (hwf : s.WF) :
    (∀ o ∈ (s.memtable.select row cols T ::
      s.disktables.map (fun d => d.select row cols T)), o = none) ↔
      ¬ rowPresent s row := by
  constructor
  · intro hall hpres
    rcases hpres with h | ⟨d, hd, h⟩
    · have hm := hall _ (List.mem_cons_self _ _)
      rw [mtable_select_none_iff] at hm
      rw [hm] at h
      simp at h
    · have hdsel := hall (d.select row cols T)
        (List.mem_cons_of_mem _ (List.mem_map.mpr ⟨d, hd, rfl⟩))
      rw [dtable_select_none_iff d row cols T (hwf.2 d hd).1] at hdsel
      rw [hdsel] at h
      simp at h
  · intro hnp o ho
    rcases List.mem_cons.mp ho with h | h
    · subst h
      by_contra hne
      apply hnp
      left
      rcases ho' : s.memtable.select row cols T with _ | v
      · exact absurd ho' hne
      · have := (not_iff_not.mpr
          (mtable_select_none_iff s.memtable row cols T)).mp (by rw [ho']; simp)
        cases hb : btGet s.memtable.rows row with
        | none => exact absurd hb this
        | some r => simp
    · obtain ⟨d, hd, hdo⟩ := List.mem_map.mp h
      subst hdo
      by_contra hne
      apply hnp
      right
      refine ⟨d, hd, ?_⟩
      have := (not_iff_not.mpr
        (dtable_select_none_iff d row cols T (hwf.2 d hd).1)).mp hne
      cases hb : btGet d.entries row with
      | none => exact absurd hb this
      | some r => simp

/-- C1 (amended): for engine states whose disktables each hold at most two
rows — the domain on which the data-file read is exact: every header index
is 0 or the last, so the mis-sized region of the C2 slip never arises (see
`middle_region_over_reads`) — `Base::select` merges the memtable and all
disktables per requested column, answering the value of an entry of maximal
timestamp among the stored entries with positive timestamp at most `T`,
`None` when no such entry exists, and `RowNotFound` exactly when no source
holds the row. Entries with timestamp 0 are invisible (see the C10
theorem); the original claim, which promised them too, fails (see the C1
counterexample), and beyond the two-row domain the broken read path (C2)
can misread or miss rows, so no stronger scope is claimed. -/
theorem base_select_versioned_read (s : BaseState) (row : String)
    (cols : List String) (T : Nat) (hwf : s.WF)
    (hsmall : ∀ d ∈ s.disktables, d.entries.length ≤ 2) :
    (Base.select s row cols T = .RowNotFound ↔ ¬ rowPresent s row) ∧
    (rowPresent s row →
      ∃ vals, Base.select s row cols T = .Data vals ∧
        vals.length = cols.length ∧
        ∀ i, i < cols.length →
          ((vals.getD i none = none ↔
            ∀ e ∈ storedEntries s row (cols.getD i ""),
              ¬(0 < e.timestamp ∧ e.timestamp ≤ T)) ∧
           (∀ v, vals.getD i none = some v →
             ∃ e ∈ storedEntries s row (cols.getD i ""),
               e.value = v ∧ 0 < e.timestamp ∧ e.timestamp ≤ T ∧
               ∀ x ∈ storedEntries s row (cols.getD i ""),
                 x.timestamp ≤ T → x.timestamp ≤ e.timestamp))) := by
  have hunf : Base.select s row cols T =
      (match ((s.memtable.select row cols T ::
        s.disktables.map (fun d => d.select row cols T)).filterMap id).length with
       | 0 => QueryResult.RowNotFound
       | _ + 1 => QueryResult.Data ((List.range cols.length).map (fun i =>
           if (selectScan (((s.memtable.select row cols T ::
             s.disktables.map (fun d => d.select row cols T)).filterMap id).map
               (fun r => r.getD i none)) T).1 = 0 then none
           else
             match (selectScan (((s.memtable.select row cols T ::
               s.disktables.map (fun d => d.select row cols T)).filterMap id).map
                 (fun r => r.getD i none)) T).2 with
             | some r => some r.value
             | none => none))) := rfl
  cases hlen : ((s.memtable.select row cols T ::
      s.disktables.map (fun d => d.select row cols T)).filterMap id).length with
  | zero =>
    have hsel : Base.select s row cols T = .RowNotFound := by
      rw [hunf, hlen]
    have hnil : (s.memtable.select row cols T ::
        s.disktables.map (fun d => d.select row cols T)).filterMap id = [] :=
      List.length_eq_zero.mp hlen
    have hall : ∀ o ∈ (s.memtable.select row cols T ::
        s.disktables.map (fun d => d.select row cols T)), o = none := by
      have := List.filterMap_eq_nil_iff.mp hnil
      intro o ho
      have h := this o ho
      simpa using h
    have hnp : ¬ rowPresent s row :=
      (sources_none_iff s row cols T hwf).mp hall
    refine ⟨by rw [hsel]; simp [hnp], ?_⟩
    intro hpres
    exact absurd hpres hnp
  | succ n =>
    have hsel : Base.select s row cols T =
        .Data ((List.range cols.length).map (fun i =>
          if (selectScan (((s.memtable.select row cols T ::
            s.disktables.map (fun d => d.select row cols T)).filterMap id).map
              (fun r => r.getD i none)) T).1 = 0 then none
          else
            match (selectScan (((s.memtable.select row cols T ::
              s.disktables.map (fun d => d.select row cols T)).filterMap id).map
                (fun r => r.getD i none)) T).2 with
            | some r => some r.value
            | none => none)) := by
      rw [hunf, hlen]
    have hpres : rowPresent s row := by
      by_contra hnp
      have hall := (sources_none_iff s row cols T hwf).mpr hnp
      have : (s.memtable.select row cols T ::
          s.disktables.map (fun d => d.select row cols T)).filterMap id = [] := by
        rw [List.filterMap_eq_nil_iff]
        intro o ho
        simpa using hall o ho
      rw [this] at hlen
      simp at hlen
    constructor
    · rw [hsel]
      simp [hpres]
    · intro _
      refine ⟨_, hsel, by simp, ?_⟩
      intro i hi
      have hval : (((List.range cols.length).map (fun i =>
          if (selectScan (((s.memtable.select row cols T ::
            s.disktables.map (fun d => d.select row cols T)).filterMap id).map
              (fun r => r.getD i none)) T).1 = 0 then none
          else
            match (selectScan (((s.memtable.select row cols T ::
              s.disktables.map (fun d => d.select row cols T)).filterMap id).map
                (fun r => r.getD i none)) T).2 with
            | some r => some r.value
            | none => none)).getD i none)
          = (if (selectScan (((s.memtable.select row cols T ::
              s.disktables.map (fun d => d.select row cols T)).filterMap id).map
                (fun r => r.getD i none)) T).1 = 0 then none
             else
               match (selectScan (((s.memtable.select row cols T ::
                 s.disktables.map (fun d => d.select row cols T)).filterMap id).map
                   (fun r => r.getD i none)) T).2 with
               | some r => some r.value
               | none => none) := by
        rw [List.getD_eq_getElem _ none (by simpa using hi), List.getElem_map,
          List.getElem_range]
      rw [hval]
      obtain ⟨hz, hpos⟩ := base_scan_column s row cols T hwf i hi
      by_cases h0 : (selectScan (((s.memtable.select row cols T ::
          s.disktables.map (fun d => d.select row cols T)).filterMap id).map
            (fun r => r.getD i none)) T).1 = 0
      · rw [if_pos h0]
        refine ⟨⟨fun _ => hz h0, fun _ => rfl⟩, ?_⟩
        intro v hv
        simp at hv
      · rw [if_neg h0]
        obtain ⟨e, hmem, hsnd, hepos, hele, hemax⟩ := hpos (by omega)
        rw [hsnd]
        constructor
        · constructor
          · intro h
            simp at h
          · intro hnone
            exact absurd ⟨hepos, hele⟩ (hnone e hmem)
        · intro v hv
          simp only [Option.some.injEq] at hv
          exact ⟨e, hmem, hv, hepos, hele, hemax⟩

/-- An engine whose only entry for ("r", "c") has timestamp 0: the original
C1 claim demands `Data [some [7]]` from `select` at `T = 5`, the code
answers `Data [none]`. -/
def tsZeroState : BaseState :=
  ⟨⟨[("r", ⟨[("c", ⟨[⟨0, [7]⟩]⟩)]⟩)]⟩, [], [], 0, 100, 10⟩

/-- C1, counterexample to the claim as stated: the row is present and its
single entry for column "c" has timestamp 0 ≤ 5, so the claim requires its
value `[7]`; `Base::select` answers `None` for the column. -/
theorem base_select_timestamp_zero_counterexample :
    Base.select tsZeroState "r" ["c"] 5 = .Data [none] ∧
      storedEntries tsZeroState "r" "c" = [⟨0, [7]⟩] ∧
      rowPresent tsZeroState "r" :=
  ⟨by decide, by decide, by decide⟩

/-- A two-source engine used to instantiate the C1 theorem: the memtable
holds ("r", "c") at timestamp 1, one disktable holds it at timestamp 3. -/
def c1WitnessState : BaseState :=
  ⟨⟨[("r", ⟨[("c", ⟨[⟨1, [2]⟩]⟩)]⟩)]⟩,
    [⟨[("r", ⟨["c"], [⟨[⟨3, [9]⟩]⟩]⟩)]⟩], [], 0, 100, 10⟩

/-- C1, witness: the amended theorem applied to `c1WitnessState`, whose
single disktable holds one row. -/
theorem base_select_versioned_read_witness :
    (Base.select c1WitnessState "r" ["c"] 5 = .RowNotFound ↔
      ¬ rowPresent c1WitnessState "r") ∧
    (rowPresent c1WitnessState "r" →
      ∃ vals, Base.select c1WitnessState "r" ["c"] 5 = .Data vals ∧
        vals.length = (["c"] : List String).length ∧
        ∀ i, i < (["c"] : List String).length →
          ((vals.getD i none = none ↔
            ∀ e ∈ storedEntries c1WitnessState "r" ((["c"] : List String).getD i ""),
              ¬(0 < e.timestamp ∧ e.timestamp ≤ 5)) ∧
           (∀ v, vals.getD i none = some v →
             ∃ e ∈ storedEntries c1WitnessState "r" ((["c"] : List String).getD i ""),
               e.value = v ∧ 0 < e.timestamp ∧ e.timestamp ≤ 5 ∧
               ∀ x ∈ storedEntries c1WitnessState "r" ((["c"] : List String).getD i ""),
                 x.timestamp ≤ 5 → x.timestamp ≤ e.timestamp))) :=
  base_select_versioned_read c1WitnessState "r" ["c"] 5 (by decide) (by decide)

/-- C10: `Base::select` never returns a value carried by a timestamp-0
entry, whatever the sources report. `Base.selectFrom` is the merging half
of `Base::select` (the engine's select is definitionally `selectFrom` of
its per-source results — first conjunct), and the remaining conjuncts
quantify over EVERY possible list of source results, so they cover whatever
rows the disktable decode produces, including the mis-sized reads of the
C2 slip: any value in a `Data` answer is the value of a reported entry with
positive timestamp at most `T` (the winner scan starts from best timestamp
0 and accepts only strictly greater ones), and when every reported entry
has timestamp 0 — e.g. a row whose only entries carry timestamp 0 — the
answer is `Data` with every requested column `None`, never those values. -/
theorem select_never_returns_timestamp_zero
    (srcs : List (Option (List (Option DEntry)))) (cols : List String)
    (T : Nat) :
    (∀ (s : BaseState) (row : String),
      Base.select s row cols T =
        Base.selectFrom (s.memtable.select row cols T ::
          s.disktables.map (fun d => d.select row cols T)) cols T) ∧
    (∀ vals, Base.selectFrom srcs cols T = .Data vals →
      ∀ i v, vals.getD i none = some v →
        ∃ e : DEntry,
          some e ∈ (srcs.filterMap id).map (fun r => r.getD i none) ∧
          e.value = v ∧ 0 < e.timestamp ∧ e.timestamp ≤ T) ∧
    (srcs.filterMap id ≠ [] →
      (∀ r ∈ srcs.filterMap id, ∀ o ∈ r, ∀ e : DEntry, o = some e →
        e.timestamp = 0) →
      Base.selectFrom srcs cols T = .Data (cols.map (fun _ => none))) := by
  have hunf : Base.selectFrom srcs cols T =
      (match (srcs.filterMap id).length with
       | 0 => QueryResult.RowNotFound
       | _ + 1 => QueryResult.Data ((List.range cols.length).map (fun i =>
           if (selectScan ((srcs.filterMap id).map
               (fun r => r.getD i none)) T).1 = 0 then none
           else
             match (selectScan ((srcs.filterMap id).map
                 (fun r => r.getD i none)) T).2 with
             | some r => some r.value
             | none => none))) := rfl
  refine ⟨fun s row => rfl, ?_, ?_⟩
  · intro vals hdata i v hv
    cases hlen : (srcs.filterMap id).length with
    | zero =>
      rw [hunf, hlen] at hdata
      simp at hdata
    | succ n =>
      have hdata2 : vals = (List.range cols.length).map (fun i =>
          if (selectScan ((srcs.filterMap id).map
              (fun r => r.getD i none)) T).1 = 0 then none
          else
            match (selectScan ((srcs.filterMap id).map
                (fun r => r.getD i none)) T).2 with
            | some r => some r.value
            | none => none) := by
        rw [hunf, hlen] at hdata
        exact (QueryResult.Data.injEq _ _).mp hdata.symm
      by_cases hi : i < cols.length
      · have hval : vals.getD i none =
            (if (selectScan ((srcs.filterMap id).map
                (fun r => r.getD i none)) T).1 = 0 then none
             else
               match (selectScan ((srcs.filterMap id).map
                   (fun r => r.getD i none)) T).2 with
               | some r => some r.value
               | none => none) := by
          rw [hdata2, List.getD_eq_getElem _ none (by simpa using hi),
            List.getElem_map, List.getElem_range]
        rw [hval] at hv
        by_cases h0 : (selectScan ((srcs.filterMap id).map
            (fun r => r.getD i none)) T).1 = 0
        · rw [if_pos h0] at hv
          simp at hv
        · rw [if_neg h0] at hv
          obtain ⟨h1, h2, h3⟩ := selectScanAux_spec T
            ((srcs.filterMap id).map (fun r => r.getD i none)) (0, none)
          rcases h1 with h | ⟨e, he, heq, het, hgt⟩
          · exact absurd (congrArg Prod.fst h) h0
          · rw [show selectScanAux T ((srcs.filterMap id).map
                (fun r => r.getD i none)) (0, none)
              = selectScan ((srcs.filterMap id).map
                (fun r => r.getD i none)) T from rfl] at heq
            rw [heq] at hv
            simp only [Option.some.injEq] at hv
            refine ⟨e, he, hv, ?_, het⟩
            simp at hgt
            omega
      · exfalso
        have : vals.getD i none = none := by
          rw [List.getD_eq_getElem?_getD]
          rw [List.getElem?_eq_none (by
            rw [hdata2]
            simpa using not_lt.mp hi)]
          rfl
        rw [this] at hv
        simp at hv
  · intro hne hzero
    cases hlen : (srcs.filterMap id).length with
    | zero => exact absurd (List.length_eq_zero.mp hlen) hne
    | succ n =>
      have hsel : Base.selectFrom srcs cols T =
          .Data ((List.range cols.length).map (fun i =>
            if (selectScan ((srcs.filterMap id).map
                (fun r => r.getD i none)) T).1 = 0 then none
            else
              match (selectScan ((srcs.filterMap id).map
                  (fun r => r.getD i none)) T).2 with
              | some r => some r.value
              | none => none)) := by
        rw [hunf, hlen]
      rw [hsel]
      congr 1
      refine List.ext_getElem (by simp) ?_
      intro i h1 h2
      have hi : i < cols.length := by simpa using h2
      simp only [List.getElem_map, List.getElem_range]
      have h0 : (selectScan ((srcs.filterMap id).map
          (fun r => r.getD i none)) T).1 = 0 := by
        by_contra hne0
        obtain ⟨h1s, h2s, h3s⟩ := selectScanAux_spec T
          ((srcs.filterMap id).map (fun r => r.getD i none)) (0, none)
        rcases h1s with h | ⟨e, he, heq, het, hgt⟩
        · exact hne0 (congrArg Prod.fst h)
        · obtain ⟨r, hr, hre⟩ := List.mem_map.mp he
          have hmem : r.getD i none ∈ r ∨ r.getD i none = none := by
            by_cases hlen2 : i < r.length
            · exact Or.inl (getD_mem r none i hlen2)
            · right
              rw [List.getD_eq_getElem?_getD,
                List.getElem?_eq_none (not_lt.mp hlen2)]
              rfl
          rcases hmem with hmem | hmem
          · have := hzero r hr (r.getD i none) hmem e hre
            simp at hgt
            omega
          · rw [hmem] at hre
            simp at hre
      rw [if_pos h0]

/-- C10, witness: the theorem applied to a source list reporting a single
row whose only entry carries timestamp 0 (the sources of `tsZeroState`). -/
theorem select_never_returns_timestamp_zero_witness :
    Base.selectFrom [some [some ⟨0, [7]⟩]] ["c"] 7 =
      .Data ((["c"] : List String).map (fun _ => none)) :=
  (select_never_returns_timestamp_zero [some [some ⟨0, [7]⟩]] ["c"] 7).2.2
    (by decide) (by decide)

/-- C4, counterexample to the claim as stated: a column whose single entry
has timestamp 5 is queried at timestamp 3 — no entry has timestamp ≤ 3, so
the claim requires "absent" (`NotFound`), but `DColumn::get_value` returns
the last entry. -/
theorem dcolumn_get_value_future_counterexample :
    DColumn.get_value ⟨[⟨5, [1]⟩]⟩ 3 = .ok ⟨5, [1]⟩ ∧
      DColumn.get_value ⟨[⟨5, [1]⟩]⟩ 3 ≠ .error .NotFound :=
  ⟨rfl, fun h => by rw [(rfl : DColumn.get_value ⟨[⟨5, [1]⟩]⟩ 3 = .ok ⟨5, [1]⟩)] at h; exact Except.noConfusion h⟩

/-- C4 (amended): on a timestamp-ordered column, `DColumn::get_value`
returns the entry with the largest timestamp ≤ t — among equal timestamps
the one at the highest position — **when such an entry exists**; when the
column is non-empty but every entry is newer than `t`, it does not report
the column as absent (as the claim stated) but returns the column's last
entry; `NotFound` arises only for an empty column. -/
theorem dcolumn_get_value_characterization (c : DColumn) (t : Nat)
    (hs : tsSorted c.entries) :
    (c.entries = [] → c.get_value t = .error .NotFound) ∧
    ((∃ e ∈ c.entries, e.timestamp ≤ t) →
      ∃ i, i < c.entries.length ∧
        c.get_value t = .ok (c.entries.getD i default) ∧
        (c.entries.getD i default).timestamp ≤ t ∧
        (∀ x ∈ c.entries, x.timestamp ≤ t →
          x.timestamp ≤ (c.entries.getD i default).timestamp) ∧
        (∀ j, i < j → j < c.entries.length →
          t < (c.entries.getD j default).timestamp)) ∧
    (c.entries ≠ [] → (∀ e ∈ c.entries, t < e.timestamp) →
      c.get_value t = .ok (c.entries.getD (c.entries.length - 1) default)) := by
  refine ⟨get_value_empty c t, ?_, get_value_all_gt c t⟩
  intro hex
  have hne : c.entries ≠ [] := by
    intro hnil
    rw [hnil] at hex
    simp at hex
  cases hl : largestIdxLE c.entries t with
  | none =>
    exfalso
    obtain ⟨e, he, het⟩ := hex
    have := (largestIdxLE_none_iff c.entries t).mp hl e he
    omega
  | some i =>
    obtain ⟨hi, hit, hgt⟩ := largestIdxLE_some c.entries t i hl
    have hok : c.get_value t = .ok (c.entries.getD i default) := by
      rw [get_value_eq_ok c t hne, hl]
      rfl
    exact ⟨i, hi, hok, hit,
      get_value_max c t (c.entries.getD i default) hs hok hit, hgt⟩

/-- C4, witness: the amended theorem applied to the two-entry column
`[(1, [4]), (3, [9])]` at timestamp 4. -/
theorem dcolumn_get_value_characterization_witness :
    ((⟨[⟨1, [4]⟩, ⟨3, [9]⟩]⟩ : DColumn).entries = [] →
      DColumn.get_value ⟨[⟨1, [4]⟩, ⟨3, [9]⟩]⟩ 4 = .error .NotFound) ∧
    ((∃ e ∈ (⟨[⟨1, [4]⟩, ⟨3, [9]⟩]⟩ : DColumn).entries, e.timestamp ≤ 4) →
      ∃ i, i < (⟨[⟨1, [4]⟩, ⟨3, [9]⟩]⟩ : DColumn).entries.length ∧
        DColumn.get_value ⟨[⟨1, [4]⟩, ⟨3, [9]⟩]⟩ 4 =
          .ok ((⟨[⟨1, [4]⟩, ⟨3, [9]⟩]⟩ : DColumn).entries.getD i default) ∧
        ((⟨[⟨1, [4]⟩, ⟨3, [9]⟩]⟩ : DColumn).entries.getD i default).timestamp ≤ 4 ∧
        (∀ x ∈ (⟨[⟨1, [4]⟩, ⟨3, [9]⟩]⟩ : DColumn).entries, x.timestamp ≤ 4 →
          x.timestamp ≤
            ((⟨[⟨1, [4]⟩, ⟨3, [9]⟩]⟩ : DColumn).entries.getD i default).timestamp) ∧
        (∀ j, i < j → j < (⟨[⟨1, [4]⟩, ⟨3, [9]⟩]⟩ : DColumn).entries.length →
          4 < ((⟨[⟨1, [4]⟩, ⟨3, [9]⟩]⟩ : DColumn).entries.getD j default).timestamp)) ∧
    ((⟨[⟨1, [4]⟩, ⟨3, [9]⟩]⟩ : DColumn).entries ≠ [] →
      (∀ e ∈ (⟨[⟨1, [4]⟩, ⟨3, [9]⟩]⟩ : DColumn).entries, 4 < e.timestamp) →
      DColumn.get_value ⟨[⟨1, [4]⟩, ⟨3, [9]⟩]⟩ 4 =
        .ok ((⟨[⟨1, [4]⟩, ⟨3, [9]⟩]⟩ : DColumn).entries.getD
          ((⟨[⟨1, [4]⟩, ⟨3, [9]⟩]⟩ : DColumn).entries.length - 1) default)) :=
  dcolumn_get_value_characterization ⟨[⟨1, [4]⟩, ⟨3, [9]⟩]⟩ 4 (by
    unfold tsSorted
    decide)

/-! ## Reachable memtables keep every column in timestamp order -/

theorem mrow_update_wf (updates : List MUpdate) (r : MRow) (t : Nat)
    (h : ∀ q ∈ r.columns, tsSorted q.2.entries) :
    ∀ q ∈ (r.update updates t).columns, tsSorted q.2.entries := by
  induction updates generalizing r with
  | nil => exact h
  | cons u us ih =>
    show ∀ q ∈ (MRow.update _ us t).columns, tsSorted q.2.entries
    apply ih
    cases hcol : btGet r.columns u.key with
    | some col =>
      simp only [hcol]
      intro q hq
      rcases mem_btInsert _ _ _ q hq with h' | h'
      · rw [h']
        exact tsSorted_insertIdx col.entries t u.value
          (h (u.key, col) (btGet_mem hcol))
      · exact h q h'
    | none =>
      simp only [hcol]
      intro q hq
      rcases mem_btInsert _ _ _ q hq with h' | h'
      · rw [h']
        exact List.pairwise_singleton _ _
      · exact h q h'

theorem insert_columns_wf (updates : List MUpdate) (t : Nat) :
    ∀ acc : List (String × DColumn), (∀ q ∈ acc, tsSorted q.2.entries) →
    ∀ q ∈ updates.foldl (fun acc u =>
      btInsert acc u.key ⟨[⟨t, u.value⟩]⟩) acc, tsSorted q.2.entries := by
  induction updates with
  | nil => intro acc hacc; exact hacc
  | cons u us ih =>
    intro acc hacc
    apply ih
    intro q hq
    rcases mem_btInsert _ _ _ q hq with h' | h'
    · rw [h']
      exact List.pairwise_singleton _ _
    · exact hacc q h'

theorem mtable_insert_wf (m : MTable) (row : String) (updates : List MUpdate)
    (t : Nat) (m2 : MTable) (hwf : m.WF)
    (h : m.insert row updates t = .ok m2) : m2.WF := by
  unfold MTable.insert at h
  by_cases hrow : (btGet m.rows row).isSome
  · rw [if_pos hrow] at h
    simp at h
  · rw [if_neg hrow] at h
    simp only [Except.ok.injEq] at h
    subst h
    intro p hp
    rcases mem_btInsert _ _ _ p hp with h' | h'
    · rw [h']
      exact insert_columns_wf updates t [] (by simp)
    · exact hwf p h'

theorem mtable_update_wf (m : MTable) (row : String) (updates : List MUpdate)
    (t : Nat) (m2 : MTable) (hwf : m.WF)
    (h : m.update row updates t = .ok m2) : m2.WF := by
  unfold MTable.update at h
  cases hrow : btGet m.rows row with
  | some r =>
    rw [hrow] at h
    simp only [Except.ok.injEq] at h
    subst h
    intro p hp
    rcases mem_btInsert _ _ _ p hp with h' | h'
    · rw [h']
      exact mrow_update_wf updates r t (hwf (row, r) (btGet_mem hrow))
    · exact hwf p h'
  | none =>
    rw [hrow] at h
    exact mtable_insert_wf m row updates t m2 hwf h

/-- A write operation against the memtable: `MTable::insert` or
`MTable::update`. -/
inductive MOp where
  | ins (row : String) (ups : List MUpdate) (t : Nat)
  | upd (row : String) (ups : List MUpdate) (t : Nat)

/-- Apply one operation; a failing insert leaves the table unchanged. -/
def applyOp (m : MTable) : MOp → MTable
  | .ins row ups t =>
    match m.insert row ups t with
    | .ok m2 => m2
    | .error _ => m
  | .upd row ups t =>
    match m.update row ups t with
    | .ok m2 => m2
    | .error _ => m

/-- The memtable reached from the empty table by a sequence of operations. -/
def applyOps (ops : List MOp) : MTable :=
  ops.foldl applyOp ⟨[]⟩

theorem applyOp_wf (m : MTable) (op : MOp) (hwf : m.WF) : (applyOp m op).WF := by
  cases op with
  | ins row ups t =>
    show (match m.insert row ups t with
          | .ok m2 => m2
          | .error _ => m).WF
    cases h : m.insert row ups t with
    | ok m2 => exact mtable_insert_wf m row ups t m2 hwf h
    | error e => exact hwf
  | upd row ups t =>
    show (match m.update row ups t with
          | .ok m2 => m2
          | .error _ => m).WF
    cases h : m.update row ups t with
    | ok m2 => exact mtable_update_wf m row ups t m2 hwf h
    | error e => exact hwf

theorem foldl_applyOp_wf (ops : List MOp) :
    ∀ m : MTable, m.WF → (ops.foldl applyOp m).WF := by
  induction ops with
  | nil => intro m hm; exact hm
  | cons op rest ih =>
    intro m hm
    exact ih (applyOp m op) (applyOp_wf m op hm)

/-- C8: every memtable reachable by insert and update operations keeps each
column non-strictly increasing in timestamp; and `MRow::update` computes its
insertion position as `i + 1` for `i` the largest index with
`entries[i].timestamp ≤ t`, or `0` when every entry is newer than `t`. -/
theorem memtable_timestamp_monotonic :
    (∀ ops : List MOp, (applyOps ops).WF) ∧
    (∀ (es : List DEntry) (t : Nat),
      ((∃ j, j < es.length ∧ (es.getD j default).timestamp ≤ t) →
        ∃ i, insertionIndex es t = i + 1 ∧ i < es.length ∧
          (es.getD i default).timestamp ≤ t ∧
          ∀ j, j < es.length → (es.getD j default).timestamp ≤ t → j ≤ i) ∧
      ((∀ j, j < es.length → t < (es.getD j default).timestamp) →
        insertionIndex es t = 0)) := by
  constructor
  · intro ops
    exact foldl_applyOp_wf ops ⟨[]⟩ (by intro p hp; simp at hp)
  · intro es t
    constructor
    · intro hex
      obtain ⟨j, hj, hjt⟩ := hex
      cases hl : largestIdxLE es t with
      | none =>
        exfalso
        have := (largestIdxLE_none_iff es t).mp hl
          (es.getD j default) (getD_mem es default j hj)
        omega
      | some i =>
        obtain ⟨hi, hit, hgt⟩ := largestIdxLE_some es t i hl
        refine ⟨i, by simp [insertionIndex, hl], hi, hit, ?_⟩
        intro k hk hkt
        by_contra hik
        have := hgt k (by omega) hk
        omega
    · intro hall
      have : largestIdxLE es t = none := by
        rw [largestIdxLE_none_iff]
        intro e he
        obtain ⟨⟨j, hj⟩, hget⟩ := List.mem_iff_get.mp he
        have : es.getD j default = e := by
          rw [List.getD_eq_getElem es default hj]
          simpa using hget
        rw [← this]
        exact hall j hj
      simp [insertionIndex, this]

/-- C8, witness: the invariant at a concrete operation sequence and the
insertion position on a concrete column. -/
theorem memtable_timestamp_monotonic_witness :
    (applyOps [.ins "r" [⟨"c", [1]⟩] 5, .upd "r" [⟨"c", [2]⟩] 3,
      .upd "r" [⟨"c", [3]⟩] 9]).WF ∧
    (∃ i, insertionIndex [⟨1, []⟩, ⟨4, []⟩] 3 = i + 1 ∧ i < 2 ∧
      (([⟨1, []⟩, ⟨4, []⟩] : List DEntry).getD i default).timestamp ≤ 3 ∧
      ∀ j, j < 2 → (([⟨1, []⟩, ⟨4, []⟩] : List DEntry).getD j
        default).timestamp ≤ 3 → j ≤ i) :=
  ⟨memtable_timestamp_monotonic.1 _,
    (memtable_timestamp_monotonic.2 [⟨1, []⟩, ⟨4, []⟩] 3).1
      ⟨0, by decide, by decide⟩⟩

/-! ## The write paths of the engine -/

/-- The state reached after a successful memtable mutation to `mt2`
followed by a successful commit-log append for the same write. -/
def afterCommit (s : BaseState) (mt2 : MTable) (row : String)
    (ups : List MUpdate) (t : Nat) : BaseState :=
  { s with
      memtable := mt2
      commitLog := s.commitLog ++ [Base.commitEntry row ups t] }

theorem base_insert_unfold_ok (s : BaseState) (row : String)
    (ups : List MUpdate) (t : Nat) (commitOk : Bool) (mt2 : MTable)
    (h : s.memtable.insert row ups t = .ok mt2) :
    Base.insert s row ups t commitOk =
      (if commitOk then
        match Base.check_size_limits (afterCommit s mt2 row ups t) with
        | some s3 => some (.Done, s3)
        | none => none
       else some (.PartialCommit, { s with memtable := mt2 })) := by
  unfold Base.insert
  rw [h]
  rfl

theorem base_insert_unfold_err (s : BaseState) (row : String)
    (ups : List MUpdate) (t : Nat) (commitOk : Bool)
    (h : s.memtable.insert row ups t = .error .AlreadyExists) :
    Base.insert s row ups t commitOk = some (.RowAlreadyExists, s) := by
  unfold Base.insert
  rw [h]

theorem base_insert_unfold_ioerr (s : BaseState) (row : String)
    (ups : List MUpdate) (t : Nat) (commitOk : Bool) (e : TError)
    (hne : e ≠ .AlreadyExists)
    (h : s.memtable.insert row ups t = .error e) :
    Base.insert s row ups t commitOk = some (.InternalError, s) := by
  unfold Base.insert
  rw [h]
  cases e with
  | AlreadyExists => exact absurd rfl hne
  | IoError => rfl
  | NotFound => rfl

theorem base_update_unfold_ok (s : BaseState) (row : String)
    (ups : List MUpdate) (t : Nat) (commitOk : Bool) (mt2 : MTable)
    (h : s.memtable.update row ups t = .ok mt2) :
    Base.update s row ups t commitOk =
      (if commitOk then
        match Base.check_size_limits (afterCommit s mt2 row ups t) with
        | some s3 => some (.Done, s3)
        | none => none
       else some (.PartialCommit, { s with memtable := mt2 })) := by
  unfold Base.update Base.direct_update
  rw [h]
  rfl

theorem mtable_insert_ok_of_absent (m : MTable) (row : String)
    (ups : List MUpdate) (t : Nat) (habs : btGet m.rows row = none) :
    m.insert row ups t = .ok ⟨btInsert m.rows row
      ⟨ups.foldl (fun acc u =>
        btInsert acc u.key ⟨[⟨t, u.value⟩]⟩) []⟩⟩ := by
  unfold MTable.insert
  rw [habs]
  rfl

theorem base_insert_no_rownotfound (s : BaseState) (row : String)
    (ups : List MUpdate) (t : Nat) (commitOk : Bool) :
    ∀ r s2, Base.insert s row ups t commitOk = some (r, s2) →
      r ≠ .RowNotFound := by
  intro r s2 hr
  cases hins : s.memtable.insert row ups t with
  | ok mt2 =>
    rw [base_insert_unfold_ok s row ups t commitOk mt2 hins] at hr
    cases commitOk with
    | false =>
      rw [if_neg (by simp)] at hr
      simp only [Option.some.injEq, Prod.mk.injEq] at hr
      rw [← hr.1]
      simp
    | true =>
      rw [if_pos rfl] at hr
      cases hchk : Base.check_size_limits (afterCommit s mt2 row ups t) with
      | some s3 =>
        rw [hchk] at hr
        simp only [Option.some.injEq, Prod.mk.injEq] at hr
        rw [← hr.1]
        simp
      | none =>
        rw [hchk] at hr
        simp at hr
  | error e =>
    cases e with
    | AlreadyExists =>
      rw [base_insert_unfold_err s row ups t commitOk hins] at hr
      simp only [Option.some.injEq, Prod.mk.injEq] at hr
      rw [← hr.1]
      simp
    | IoError =>
      rw [base_insert_unfold_ioerr s row ups t commitOk _ (by simp) hins] at hr
      simp only [Option.some.injEq, Prod.mk.injEq] at hr
      rw [← hr.1]
      simp
    | NotFound =>
      rw [base_insert_unfold_ioerr s row ups t commitOk _ (by simp) hins] at hr
      simp only [Option.some.injEq, Prod.mk.injEq] at hr
      rw [← hr.1]
      simp

/-- An engine whose only copy of row "k" lives in a disktable; the memtable
is empty. -/
def dtOnlyState : BaseState :=
  ⟨⟨[]⟩, [⟨[("k", ⟨["c"], [⟨[⟨1, [1]⟩]⟩]⟩)]⟩], [], 0, 100, 10⟩

/-- C5, counterexample to the claim as stated: row "k" exists only in a
disktable, yet `Base::insert` succeeds with `Done` instead of failing with
`RowAlreadyExists`. -/
theorem insert_after_flush_counterexample :
    (Base.insert dtOnlyState "k" [⟨"c", [2]⟩] 5 true).map Prod.fst
        = some .Done ∧
      btGet dtOnlyState.memtable.rows "k" = none ∧
      (∃ d ∈ dtOnlyState.disktables, (btGet d.entries "k").isSome = true) := by
  refine ⟨by decide, by decide, by decide⟩

/-- C5 (amended): `Base::insert` checks uniqueness only against the
memtable. For any key absent from the memtable — in particular one present
only in disktables — insert never returns `RowAlreadyExists`, and with a
successful commit and no size overflow it returns `Done` with the row added
to the memtable. -/
theorem insert_checks_only_memtable (s : BaseState) (row : String)
    (ups : List MUpdate) (t : Nat) (commitOk : Bool)
    (habs : btGet s.memtable.rows row = none) :
    (∀ r s2, Base.insert s row ups t commitOk = some (r, s2) →
      r ≠ .RowAlreadyExists) ∧
    (∀ mt2, s.memtable.insert row ups t = .ok mt2 → commitOk = true →
      mt2.size ≤ s.memtableSizeLimit →
      Base.insert s row ups t commitOk =
        some (.Done, afterCommit s mt2 row ups t)) := by
  have hok := mtable_insert_ok_of_absent s.memtable row ups t habs
  constructor
  · intro r s2 hr
    rw [base_insert_unfold_ok s row ups t commitOk _ hok] at hr
    cases commitOk with
    | false =>
      rw [if_neg (by simp)] at hr
      simp only [Option.some.injEq, Prod.mk.injEq] at hr
      rw [← hr.1]
      simp
    | true =>
      rw [if_pos rfl] at hr
      cases hchk : Base.check_size_limits (afterCommit s _ row ups t) with
      | some s3 =>
        rw [hchk] at hr
        simp only [Option.some.injEq, Prod.mk.injEq] at hr
        rw [← hr.1]
        simp
      | none =>
        rw [hchk] at hr
        simp at hr
  · intro mt2 hmt2 hcommit hsize
    subst hcommit
    rw [base_insert_unfold_ok s row ups t true mt2 hmt2]
    rw [if_pos rfl]
    have hchk : Base.check_size_limits (afterCommit s mt2 row ups t)
        = some (afterCommit s mt2 row ups t) := by
      unfold Base.check_size_limits
      rw [if_neg (by simp [afterCommit]; omega)]
    rw [hchk]

/-- C5, witness: inserting a key that exists only in a disktable. -/
theorem insert_checks_only_memtable_witness :
    (∀ r s2, Base.insert dtOnlyState "k" [⟨"c", [2]⟩] 5 true = some (r, s2) →
      r ≠ .RowAlreadyExists) ∧
    (∀ mt2, dtOnlyState.memtable.insert "k" [⟨"c", [2]⟩] 5 = .ok mt2 →
      true = true → mt2.size ≤ dtOnlyState.memtableSizeLimit →
      Base.insert dtOnlyState "k" [⟨"c", [2]⟩] 5 true =
        some (.Done, afterCommit dtOnlyState mt2 "k" [⟨"c", [2]⟩] 5)) :=
  insert_checks_only_memtable dtOnlyState "k" [⟨"c", [2]⟩] 5 true (by decide)

/-- C6: the write path mutates the memtable first and appends to the commit
log second. A commit failure after a successful memtable mutation (insert or
update) yields `PartialCommit` with the mutated memtable kept (no rollback)
and the commit log untouched; a failed memtable insert returns with the
whole state unchanged, so the commit-log append is never attempted before
the memtable mutation succeeds. -/
theorem write_path_partial_commit (s : BaseState) (row : String)
    (ups : List MUpdate) (t : Nat) :
    (∀ mt2, s.memtable.insert row ups t = .ok mt2 →
      Base.insert s row ups t false =
        some (.PartialCommit, { s with memtable := mt2 })) ∧
    (∀ mt2, s.memtable.update row ups t = .ok mt2 →
      Base.update s row ups t false =
        some (.PartialCommit, { s with memtable := mt2 })) ∧
    (s.memtable.insert row ups t = .error .AlreadyExists →
      ∀ commitOk, Base.insert s row ups t commitOk =
        some (.RowAlreadyExists, s)) := by
  refine ⟨?_, ?_, ?_⟩
  · intro mt2 h
    rw [base_insert_unfold_ok s row ups t false mt2 h]
    rw [if_neg (by simp)]
  · intro mt2 h
    rw [base_update_unfold_ok s row ups t false mt2 h]
    rw [if_neg (by simp)]
  · intro h commitOk
    exact base_insert_unfold_err s row ups t commitOk h

/-- C6, witness: a fresh insert and an update against a one-row memtable,
both with a failing commit log. -/
theorem write_path_partial_commit_witness :
    (∀ mt2, (⟨⟨[]⟩, [], [], 0, 100, 10⟩ : BaseState).memtable.insert "r"
        [⟨"c", [1]⟩] 4 = .ok mt2 →
      Base.insert ⟨⟨[]⟩, [], [], 0, 100, 10⟩ "r" [⟨"c", [1]⟩] 4 false =
        some (.PartialCommit,
          { (⟨⟨[]⟩, [], [], 0, 100, 10⟩ : BaseState) with memtable := mt2 })) ∧
    (∀ mt2, (⟨⟨[]⟩, [], [], 0, 100, 10⟩ : BaseState).memtable.update "r"
        [⟨"c", [1]⟩] 4 = .ok mt2 →
      Base.update ⟨⟨[]⟩, [], [], 0, 100, 10⟩ "r" [⟨"c", [1]⟩] 4 false =
        some (.PartialCommit,
          { (⟨⟨[]⟩, [], [], 0, 100, 10⟩ : BaseState) with memtable := mt2 })) ∧
    ((⟨⟨[]⟩, [], [], 0, 100, 10⟩ : BaseState).memtable.insert "r"
        [⟨"c", [1]⟩] 4 = .error .AlreadyExists →
      ∀ commitOk, Base.insert ⟨⟨[]⟩, [], [], 0, 100, 10⟩ "r" [⟨"c", [1]⟩] 4
        commitOk = some (.RowAlreadyExists, ⟨⟨[]⟩, [], [], 0, 100, 10⟩)) :=
  write_path_partial_commit ⟨⟨[]⟩, [], [], 0, 100, 10⟩ "r" [⟨"c", [1]⟩] 4

/-- C7: on a key absent from the memtable, `Base::update` falls back to
insert: it is the same computation as `Base::insert` at the same arguments
— same result and same final state — and never returns `RowNotFound`. -/
theorem update_promotes_to_insert (s : BaseState) (row : String)
    (ups : List MUpdate) (t : Nat) (commitOk : Bool)
    (habs : btGet s.memtable.rows row = none) :
    Base.update s row ups t commitOk = Base.insert s row ups t commitOk ∧
    (∀ r s2, Base.update s row ups t commitOk = some (r, s2) →
      r ≠ .RowNotFound) := by
  have hupd : s.memtable.update row ups t = s.memtable.insert row ups t := by
    unfold MTable.update
    rw [habs]
  have hok := mtable_insert_ok_of_absent s.memtable row ups t habs
  have heq : Base.update s row ups t commitOk
      = Base.insert s row ups t commitOk := by
    rw [base_update_unfold_ok s row ups t commitOk _ (hupd.trans hok),
      base_insert_unfold_ok s row ups t commitOk _ hok]
  refine ⟨heq, ?_⟩
  rw [heq]
  exact base_insert_no_rownotfound s row ups t commitOk

/-- C7, witness: updating a key that is nowhere in the memtable. -/
theorem update_promotes_to_insert_witness :
    Base.update dtOnlyState "w" [⟨"c", [3]⟩] 6 true =
      Base.insert dtOnlyState "w" [⟨"c", [3]⟩] 6 true ∧
    (∀ r s2, Base.update dtOnlyState "w" [⟨"c", [3]⟩] 6 true = some (r, s2) →
      r ≠ .RowNotFound) :=
  update_promotes_to_insert dtOnlyState "w" [⟨"c", [3]⟩] 6 true (by decide)

/-! ## Compaction bookkeeping -/

theorem emptyMemtable_eq (s : BaseState) :
    Base.emptyMemtable s =
      (if s.disktableLimit < s.disktables.length + 1 then
        Base.mergeDisktables { s with disktableIndex := s.disktableIndex + 1 }
       else some { s with disktableIndex := s.disktableIndex + 1 }).map
        (fun s2 =>
          { s2 with
              disktables := s2.disktables ++ [s2.memtable.write_to_writer]
              memtable := ⟨[]⟩
              commitLog := [] }) := rfl

theorem mergeDisktables_eq (s : BaseState) :
    Base.mergeDisktables s =
      (match DTableL.from_vec s.disktables with
       | some d => some { s with
           disktableIndex := s.disktableIndex + 1
           disktables := [d] }
       | none => none) := rfl

/-- The engine of the C9 counterexample: `disktable_limit = 1` with one
disktable already on disk. -/
def limitOneState : BaseState :=
  ⟨⟨[]⟩, [⟨[("a", ⟨["c"], [⟨[⟨1, [1]⟩]⟩]⟩)]⟩], [], 1, 10, 1⟩

/-- C9, counterexample to the claim as stated: with `disktable_limit = 1`
(≥ 1, as the claim allows) and one live disktable, a successful minor
compaction first merges the disktables into one and then appends the
flushed memtable, leaving 2 > 1 disktables. -/
theorem disktable_limit_one_counterexample :
    limitOneState.disktableLimit = 1 ∧
    (Base.emptyMemtable limitOneState).map
      (fun s2 => s2.disktables.length) = some 2 ∧
    (Base.emptyMemtable limitOneState).map
      (fun s2 => s2.disktableLimit) = some 1 :=
  ⟨rfl, by decide, by decide⟩

/-- C9 (amended): for `disktable_limit ≥ 2`, any successful minor
compaction leaves at most `disktable_limit` disktables: when the flush
would exceed the limit, a major compaction first collapses all disktables
into one, and the flush then brings the count to exactly 2. With
`disktable_limit = 1` the bound fails (see the counterexample), since the
merged table and the flushed table already number 2. -/
theorem disktable_limit_invariant (s s2 : BaseState)
    (hlim : 2 ≤ s.disktableLimit)
    (h : Base.emptyMemtable s = some s2) :
    s2.disktables.length ≤ s2.disktableLimit := by
  rw [emptyMemtable_eq] at h
  by_cases hc : s.disktableLimit < s.disktables.length + 1
  · rw [if_pos hc] at h
    rw [mergeDisktables_eq] at h
    cases hm : DTableL.from_vec s.disktables with
    | some d =>
      rw [show ({ s with disktableIndex := s.disktableIndex + 1 }
          : BaseState).disktables = s.disktables from rfl, hm] at h
      simp only [Option.map_some'] at h
      rw [← Option.some.inj h]
      simpa using hlim
    | none =>
      rw [show ({ s with disktableIndex := s.disktableIndex + 1 }
          : BaseState).disktables = s.disktables from rfl, hm] at h
      simp at h
  · rw [if_neg hc] at h
    simp only [Option.map_some'] at h
    rw [← Option.some.inj h]
    simp only [List.length_append, List.length_singleton]
    omega

/-- The engine for the C9 witness: limit 2, one disktable. -/
def limitTwoState : BaseState :=
  ⟨⟨[]⟩, [⟨[("a", ⟨["c"], [⟨[⟨1, [1]⟩]⟩]⟩)]⟩], [], 0, 10, 2⟩

/-- The state after flushing `limitTwoState`. -/
def limitTwoAfter : BaseState :=
  ⟨⟨[]⟩, [⟨[("a", ⟨["c"], [⟨[⟨1, [1]⟩]⟩]⟩)]⟩, ⟨[]⟩], [], 1, 10, 2⟩

/-- C9, witness: the amended invariant at a concrete flush. -/
theorem disktable_limit_invariant_witness :
    limitTwoAfter.disktables.length ≤ limitTwoAfter.disktableLimit :=
  disktable_limit_invariant limitTwoState limitTwoAfter (by decide) (by decide)

/-! ## The header region arithmetic and the merge panic -/

/-- The boundary of the header-region slip, derived from the embedded
arithmetic itself: at any non-last index the computed region length is the
next entry's absolute offset; when the row starts at a positive offset
(every middle index of a table whose offsets increase from 0) that length
strictly exceeds the row's own byte count `o_{i+1} - o_i`, while at a row
starting at offset 0 (index 0) the two coincide — which is why the select
theorems restrict disktables to rows at index 0 or last, i.e. tables of at
most two rows. -/
theorem middle_region_over_reads (entries : List DTableHeaderEntry) (i : Nat)
    (hi : i + 1 < entries.length) :
    (DTable.get_offset_from_index entries i).length
        = some ((entries.getD (i + 1) default).offset) ∧
    (0 < (entries.getD i default).offset →
      (entries.getD i default).offset ≤ (entries.getD (i + 1) default).offset →
      (entries.getD (i + 1) default).offset
          - (entries.getD i default).offset
        < (entries.getD (i + 1) default).offset) ∧
    ((entries.getD i default).offset = 0 →
      (entries.getD (i + 1) default).offset
        = (entries.getD (i + 1) default).offset
          - (entries.getD i default).offset) := by
  refine ⟨?_, by omega, by omega⟩
  unfold DTable.get_offset_from_index
  simp only [if_neg (Nat.ne_of_lt hi)]

/-- C2: `DTable::get_row_offset` returns, as the region `length`, the NEXT
header entry's absolute offset rather than the difference of consecutive
offsets: for the key at index 1 of a header with offsets 0, 100, 250 it
answers `(start 100, length 250)` although the row occupies only
250 − 100 = 150 bytes; `get_row` then reads `length` bytes from `start`.
The repository's own test `row_offset_methods_match` (base.rs) asserts the
returned length to be the row's byte size, which this value contradicts. -/
theorem get_row_offset_length_is_next_offset :
    DTable.get_row_offset [⟨"a", 0⟩, ⟨"b", 100⟩, ⟨"c", 250⟩] "b"
        = some ⟨100, some 250⟩ ∧
      (250 : Nat) ≠ 250 - 100 ∧
      DTable.get_offset_from_index [⟨"a", 0⟩, ⟨"b", 100⟩, ⟨"c", 250⟩] 1
        = ⟨100, some 250⟩ :=
  ⟨by decide, by decide, by decide⟩

/-- C3: the merge loop of `DTable::from_vec` panics ("Merging rows not yet
implemented.") as soon as the same key is current in more than one input —
modelled as `none` — although the repository's own tests
`can_merge_colliding_disktables` and `can_multi_merge_disktables` (base.rs)
require the colliding rows to be merged; without a collision the same
inputs merge fine. -/
theorem dtable_from_vec_panics_on_collision :
    DTableL.from_vec [⟨[("a", ⟨["c"], [⟨[⟨1, [1]⟩]⟩]⟩)]⟩,
        ⟨[("a", ⟨["c"], [⟨[⟨2, [2]⟩]⟩]⟩)]⟩] = none ∧
      DTableL.from_vec [⟨[("a", ⟨["c"], [⟨[⟨1, [1]⟩]⟩]⟩)]⟩,
          ⟨[("b", ⟨["c"], [⟨[⟨2, [2]⟩]⟩]⟩)]⟩]
        = some ⟨[("a", ⟨["c"], [⟨[⟨1, [1]⟩]⟩]⟩),
            ("b", ⟨["c"], [⟨[⟨2, [2]⟩]⟩]⟩)]⟩ :=
  ⟨by decide, by decide⟩
